import Mathlib

/-! Verification of the flat-file credential record store of RADIUS-Bot
    (src/bot/utils/radius.py) and its credential generator
    (src/bot/utils/password.py).

    A file is modelled as a list of physical lines, each line a `List Char`
    that includes its terminating newline character, exactly as Python's
    `readlines` hands lines to the code under verification.  Randomness
    (`secrets.choice`, shuffling) is modelled by explicit index parameters
    and permutation hypotheses; the current timestamp is an explicit
    parameter; the generated (password, NT-hash) pair produced by
    `PasswordManager.generate_user_credentials` is an explicit pair of
    parameters. -/

/-- Whitespace in the sense of Python `str.strip()` and `\s` (ASCII range). -/
def pyIsSpace (c : Char) : Bool :=
  c = ' ' || c = '\t' || c = '\n' || c = '\r' || c = '\x0b' || c = '\x0c'

/-- Python `raw.startswith('\t') or raw.startswith(' ')`: the test the code
    uses everywhere for a continuation (indented) line. -/
def isIndentedLine (l : List Char) : Bool :=
  match l with
  | [] => false
  | c :: _ => c = '\t' || c = ' '

/-- Right half of Python `str.strip()`: drop trailing whitespace. -/
def rtrimChars (s : List Char) : List Char :=
  (s.reverse.dropWhile pyIsSpace).reverse

/-- Python `str.strip()`: drop leading and trailing whitespace. -/
def stripChars (s : List Char) : List Char :=
  rtrimChars (s.dropWhile pyIsSpace)

/-- Whether a (usually stripped) line starts with the comment character. -/
def headIsHash (s : List Char) : Bool :=
  match s with
  | [] => false
  | c :: _ => c = '#'

/-- A blank separator line in the sense of the sanitizer: non-indented and
    empty after `strip()`. -/
def isBlankSep (l : List Char) : Bool :=
  !isIndentedLine l && decide (stripChars l = [])

/-- The loop body state machine of `RadiusManager._sanitize_lines`
    (radius.py lines 127-167): `insideHeader` is Python's `inside_header`,
    `prevBlank` is `prev_blank`.  An indented line is dropped unless a
    header is open; a blank line is dropped if the previous emitted line
    was blank; every other line is kept and opens a header unless it is a
    comment. -/
def sanitizeAux (insideHeader prevBlank : Bool) : List (List Char) → List (List Char)
  | [] => []
  | raw :: rest =>
    if isIndentedLine raw then
      if insideHeader then raw :: sanitizeAux insideHeader false rest
      else sanitizeAux insideHeader prevBlank rest
    else if stripChars raw = [] then
      if prevBlank then sanitizeAux insideHeader prevBlank rest
      else raw :: sanitizeAux false true rest
    else
      raw :: sanitizeAux (!headIsHash (stripChars raw)) false rest

/-- `RadiusManager._sanitize_lines`: both state flags start out false. -/
def sanitize_lines (lines : List (List Char)) : List (List Char) :=
  sanitizeAux false false lines

/-- No two consecutive blank separator lines occur in the sequence. -/
def noConsecBlanks : List (List Char) → Bool
  | [] => true
  | [_] => true
  | a :: b :: rest => !(isBlankSep a && isBlankSep b) && noConsecBlanks (b :: rest)

/-- Checker for the literal no-orphan reading: walking left to right,
    blank lines and comment lines are skipped (transparent), a header line
    turns `attached` on, and every indented line demands that a header was
    seen before it. -/
def noOrphanAux (attached : Bool) : List (List Char) → Bool
  | [] => true
  | l :: rest =>
    if isIndentedLine l then attached && noOrphanAux attached rest
    else if stripChars l = [] then noOrphanAux attached rest
    else if headIsHash (stripChars l) then noOrphanAux attached rest
    else noOrphanAux true rest

def noOrphan (lines : List (List Char)) : Bool := noOrphanAux false lines

/-- Checker for the strict block-structure reading: a blank line or a
    comment line closes the current block, so every indented line sits in a
    contiguous run immediately following its owning header. -/
def blockAttachedAux (inside : Bool) : List (List Char) → Bool
  | [] => true
  | l :: rest =>
    if isIndentedLine l then inside && blockAttachedAux inside rest
    else if stripChars l = [] then blockAttachedAux false rest
    else if headIsHash (stripChars l) then blockAttachedAux false rest
    else blockAttachedAux true rest

def blockAttached (lines : List (List Char)) : Bool := blockAttachedAux false lines

-- Equation lemmas for the sanitizer and the checkers -------------------------

theorem sanitizeAux_ind_keep {raw : List Char} (h : isIndentedLine raw = true)
    (pb : Bool) (rest : List (List Char)) :
    sanitizeAux true pb (raw :: rest) = raw :: sanitizeAux true false rest := by
  simp [sanitizeAux, h]

theorem sanitizeAux_ind_skip {raw : List Char} (h : isIndentedLine raw = true)
    (pb : Bool) (rest : List (List Char)) :
    sanitizeAux false pb (raw :: rest) = sanitizeAux false pb rest := by
  simp [sanitizeAux, h]

theorem sanitizeAux_blank_skip {raw : List Char} (h1 : isIndentedLine raw = false)
    (h2 : stripChars raw = []) (ih : Bool) (rest : List (List Char)) :
    sanitizeAux ih true (raw :: rest) = sanitizeAux ih true rest := by
  simp [sanitizeAux, h1, h2]

theorem sanitizeAux_blank_keep {raw : List Char} (h1 : isIndentedLine raw = false)
    (h2 : stripChars raw = []) (ih : Bool) (rest : List (List Char)) :
    sanitizeAux ih false (raw :: rest) = raw :: sanitizeAux false true rest := by
  simp [sanitizeAux, h1, h2]

theorem sanitizeAux_other {raw : List Char} (h1 : isIndentedLine raw = false)
    (h2 : stripChars raw ≠ []) (ih pb : Bool) (rest : List (List Char)) :
    sanitizeAux ih pb (raw :: rest) =
      raw :: sanitizeAux (!headIsHash (stripChars raw)) false rest := by
  simp [sanitizeAux, h1, h2]

theorem noOrphanAux_ind {l : List Char} (h : isIndentedLine l = true)
    (b : Bool) (rest : List (List Char)) :
    noOrphanAux b (l :: rest) = (b && noOrphanAux b rest) := by
  simp [noOrphanAux, h]

theorem noOrphanAux_blank {l : List Char} (h1 : isIndentedLine l = false)
    (h2 : stripChars l = []) (b : Bool) (rest : List (List Char)) :
    noOrphanAux b (l :: rest) = noOrphanAux b rest := by
  simp [noOrphanAux, h1, h2]

theorem noOrphanAux_comment {l : List Char} (h1 : isIndentedLine l = false)
    (h2 : stripChars l ≠ []) (h3 : headIsHash (stripChars l) = true)
    (b : Bool) (rest : List (List Char)) :
    noOrphanAux b (l :: rest) = noOrphanAux b rest := by
  simp [noOrphanAux, h1, h2, h3]

theorem noOrphanAux_header {l : List Char} (h1 : isIndentedLine l = false)
    (h2 : stripChars l ≠ []) (h3 : headIsHash (stripChars l) = false)
    (b : Bool) (rest : List (List Char)) :
    noOrphanAux b (l :: rest) = noOrphanAux true rest := by
  simp [noOrphanAux, h1, h2, h3]

theorem blockAttachedAux_ind {l : List Char} (h : isIndentedLine l = true)
    (b : Bool) (rest : List (List Char)) :
    blockAttachedAux b (l :: rest) = (b && blockAttachedAux b rest) := by
  simp [blockAttachedAux, h]

theorem blockAttachedAux_blank {l : List Char} (h1 : isIndentedLine l = false)
    (h2 : stripChars l = []) (b : Bool) (rest : List (List Char)) :
    blockAttachedAux b (l :: rest) = blockAttachedAux false rest := by
  simp [blockAttachedAux, h1, h2]

theorem blockAttachedAux_comment {l : List Char} (h1 : isIndentedLine l = false)
    (h2 : stripChars l ≠ []) (h3 : headIsHash (stripChars l) = true)
    (b : Bool) (rest : List (List Char)) :
    blockAttachedAux b (l :: rest) = blockAttachedAux false rest := by
  simp [blockAttachedAux, h1, h2, h3]

theorem blockAttachedAux_header {l : List Char} (h1 : isIndentedLine l = false)
    (h2 : stripChars l ≠ []) (h3 : headIsHash (stripChars l) = false)
    (b : Bool) (rest : List (List Char)) :
    blockAttachedAux b (l :: rest) = blockAttachedAux true rest := by
  simp [blockAttachedAux, h1, h2, h3]

-- Core lemmas about the sanitizer --------------------------------------------

theorem sanitizeAux_idem (L : List (List Char)) :
    ∀ ih pb, sanitizeAux ih pb (sanitizeAux ih pb L) = sanitizeAux ih pb L := by
  induction L with
  | nil => intro ih pb; simp [sanitizeAux]
  | cons raw rest IH =>
    intro ih pb
    by_cases hind : isIndentedLine raw = true
    · cases ih with
      | true =>
        rw [sanitizeAux_ind_keep hind, sanitizeAux_ind_keep hind, IH]
      | false =>
        rw [sanitizeAux_ind_skip hind, IH]
    · have hind' : isIndentedLine raw = false := by simpa using hind
      by_cases hblank : stripChars raw = []
      · cases pb with
        | true => rw [sanitizeAux_blank_skip hind' hblank, IH]
        | false =>
          rw [sanitizeAux_blank_keep hind' hblank,
            sanitizeAux_blank_keep hind' hblank, IH]
      · rw [sanitizeAux_other hind' hblank, sanitizeAux_other hind' hblank, IH]

theorem sanitizeAux_noConsec (L : List (List Char)) :
    ∀ ih pb, noConsecBlanks (sanitizeAux ih pb L) = true ∧
      (pb = true → ∀ x xs, sanitizeAux ih pb L = x :: xs → isBlankSep x = false) := by
  induction L with
  | nil =>
    intro ih pb
    refine ⟨rfl, ?_⟩
    intro _ x xs h
    simp [sanitizeAux] at h
  | cons raw rest IH =>
    intro ih pb
    by_cases hind : isIndentedLine raw = true
    · cases ih with
      | true =>
        rw [sanitizeAux_ind_keep hind]
        refine ⟨?_, ?_⟩
        · rcases hout : sanitizeAux true false rest with _ | ⟨y, ys⟩
          · simp [noConsecBlanks]
          · have h2 := (IH true false).1
            rw [hout] at h2
            simp only [noConsecBlanks, h2, Bool.and_true]
            simp [isBlankSep, hind]
        · intro _ x xs h
          have hx : x = raw := by injection h with h1 _; exact h1.symm
          subst hx
          simp [isBlankSep, hind]
      | false =>
        rw [sanitizeAux_ind_skip hind]
        exact IH false pb
    · have hind' : isIndentedLine raw = false := by simpa using hind
      by_cases hblank : stripChars raw = []
      · cases pb with
        | true =>
          rw [sanitizeAux_blank_skip hind' hblank]
          exact IH ih true
        | false =>
          rw [sanitizeAux_blank_keep hind' hblank]
          refine ⟨?_, ?_⟩
          · rcases hout : sanitizeAux false true rest with _ | ⟨y, ys⟩
            · simp [noConsecBlanks]
            · have h2 := (IH false true).1
              rw [hout] at h2
              have hy := (IH false true).2 rfl y ys hout
              simp only [noConsecBlanks, h2, Bool.and_true]
              simp [hy]
          · intro hc; cases hc
      · rw [sanitizeAux_other hind' hblank]
        refine ⟨?_, ?_⟩
        · rcases hout : sanitizeAux (!headIsHash (stripChars raw)) false rest
            with _ | ⟨y, ys⟩
          · simp [noConsecBlanks]
          · have h2 := (IH (!headIsHash (stripChars raw)) false).1
            rw [hout] at h2
            simp only [noConsecBlanks, h2, Bool.and_true]
            simp [isBlankSep, hind', hblank]
        · intro _ x xs h
          have hx : x = raw := by injection h with h1 _; exact h1.symm
          subst hx
          simp [isBlankSep, hind', hblank]

theorem sanitizeAux_blockAttached (L : List (List Char)) :
    ∀ ih pb, blockAttachedAux ih (sanitizeAux ih pb L) = true := by
  induction L with
  | nil => intro ih pb; rfl
  | cons raw rest IH =>
    intro ih pb
    by_cases hind : isIndentedLine raw = true
    · cases ih with
      | true =>
        rw [sanitizeAux_ind_keep hind, blockAttachedAux_ind hind]
        simp [IH true false]
      | false =>
        rw [sanitizeAux_ind_skip hind]
        exact IH false pb
    · have hind' : isIndentedLine raw = false := by simpa using hind
      by_cases hblank : stripChars raw = []
      · cases pb with
        | true =>
          rw [sanitizeAux_blank_skip hind' hblank]
          exact IH ih true
        | false =>
          rw [sanitizeAux_blank_keep hind' hblank,
            blockAttachedAux_blank hind' hblank]
          exact IH false true
      · by_cases hc : headIsHash (stripChars raw) = true
        · rw [sanitizeAux_other hind' hblank,
            blockAttachedAux_comment hind' hblank hc]
          simp only [hc, Bool.not_true]
          exact IH false false
        · have hc' : headIsHash (stripChars raw) = false := by simpa using hc
          rw [sanitizeAux_other hind' hblank,
            blockAttachedAux_header hind' hblank hc']
          simp only [hc', Bool.not_false]
          exact IH true false

theorem blockAttached_imp_noOrphan (L : List (List Char)) :
    ∀ b b', (b = true → b' = true) → blockAttachedAux b L = true →
      noOrphanAux b' L = true := by
  induction L with
  | nil => intro b b' _ _; rfl
  | cons l rest IH =>
    intro b b' hbb h
    by_cases hind : isIndentedLine l = true
    · rw [blockAttachedAux_ind hind] at h
      simp only [Bool.and_eq_true] at h
      rw [noOrphanAux_ind hind, hbb h.1]
      have h3 := IH b b' hbb h.2
      rw [hbb h.1] at h3
      simpa using h3
    · have hind' : isIndentedLine l = false := by simpa using hind
      by_cases hblank : stripChars l = []
      · rw [blockAttachedAux_blank hind' hblank] at h
        rw [noOrphanAux_blank hind' hblank]
        exact IH false b' (by intro hc; cases hc) h
      · by_cases hc : headIsHash (stripChars l) = true
        · rw [blockAttachedAux_comment hind' hblank hc] at h
          rw [noOrphanAux_comment hind' hblank hc]
          exact IH false b' (by intro hcc; cases hcc) h
        · have hc' : headIsHash (stripChars l) = false := by simpa using hc
          rw [blockAttachedAux_header hind' hblank hc'] at h
          rw [noOrphanAux_header hind' hblank hc']
          exact IH true true (fun hx => hx) h

theorem sanitizeAux_sublist (L : List (List Char)) :
    ∀ ih pb, (sanitizeAux ih pb L).Sublist L := by
  induction L with
  | nil => intro ih pb; simp [sanitizeAux]
  | cons raw rest IH =>
    intro ih pb
    by_cases hind : isIndentedLine raw = true
    · cases ih with
      | true =>
        rw [sanitizeAux_ind_keep hind]
        exact (IH true false).cons₂ raw
      | false =>
        rw [sanitizeAux_ind_skip hind]
        exact (IH false pb).cons raw
    · have hind' : isIndentedLine raw = false := by simpa using hind
      by_cases hblank : stripChars raw = []
      · cases pb with
        | true =>
          rw [sanitizeAux_blank_skip hind' hblank]
          exact (IH ih true).cons raw
        | false =>
          rw [sanitizeAux_blank_keep hind' hblank]
          exact (IH false true).cons₂ raw
      · rw [sanitizeAux_other hind' hblank]
        exact (IH (!headIsHash (stripChars raw)) false).cons₂ raw

theorem sanitizeAux_countP (p : List Char → Bool)
    (hp : ∀ l, p l = true → isIndentedLine l = false ∧ stripChars l ≠ []) :
    ∀ (L : List (List Char)) ih pb,
      (sanitizeAux ih pb L).countP p = L.countP p := by
  intro L
  induction L with
  | nil => intro ih pb; rfl
  | cons raw rest IH =>
    intro ih pb
    by_cases hind : isIndentedLine raw = true
    · have hraw : p raw = false := by
        by_contra h
        have h2 := hp raw (by simpa using h)
        rw [hind] at h2
        exact absurd h2.1 (by simp)
      cases ih with
      | true =>
        rw [sanitizeAux_ind_keep hind]
        simp [List.countP_cons, hraw, IH]
      | false =>
        rw [sanitizeAux_ind_skip hind]
        simp [List.countP_cons, hraw, IH]
    · have hind' : isIndentedLine raw = false := by simpa using hind
      by_cases hblank : stripChars raw = []
      · have hraw : p raw = false := by
          by_contra h
          have h2 := hp raw (by simpa using h)
          exact h2.2 hblank
        cases pb with
        | true =>
          rw [sanitizeAux_blank_skip hind' hblank]
          simp [List.countP_cons, hraw, IH]
        | false =>
          rw [sanitizeAux_blank_keep hind' hblank]
          simp [List.countP_cons, hraw, IH]
      · rw [sanitizeAux_other hind' hblank]
        simp [List.countP_cons, IH]

theorem sanitizeAux_keeps_header {l : List Char} (hind : isIndentedLine l = false)
    (hblank : stripChars l ≠ []) :
    ∀ (L : List (List Char)) ih pb, l ∈ L → l ∈ sanitizeAux ih pb L := by
  intro L
  induction L with
  | nil => intro ih pb h; cases h
  | cons raw rest IH =>
    intro ih pb hmem
    rcases List.mem_cons.mp hmem with heq | hmem'
    · subst heq
      rw [sanitizeAux_other hind hblank]
      exact List.mem_cons_self _ _
    · by_cases hindr : isIndentedLine raw = true
      · cases ih with
        | true =>
          rw [sanitizeAux_ind_keep hindr]
          exact List.mem_cons_of_mem _ (IH _ _ hmem')
        | false =>
          rw [sanitizeAux_ind_skip hindr]
          exact IH _ _ hmem'
      · have hindr' : isIndentedLine raw = false := by simpa using hindr
        by_cases hblankr : stripChars raw = []
        · cases pb with
          | true =>
            rw [sanitizeAux_blank_skip hindr' hblankr]
            exact IH _ _ hmem'
          | false =>
            rw [sanitizeAux_blank_keep hindr' hblankr]
            exact List.mem_cons_of_mem _ (IH _ _ hmem')
        · rw [sanitizeAux_other hindr' hblankr]
          exact List.mem_cons_of_mem _ (IH _ _ hmem')

-- String utilities mirroring the Python primitives the parser uses ----------

/-- Python `str.split()` with no argument: split on runs of whitespace,
    discarding empty pieces.  `acc` holds the current token reversed. -/
def splitWsAux : List Char → List Char → List (List Char)
  | [], acc => if acc = [] then [] else [acc.reverse]
  | c :: cs, acc =>
    if pyIsSpace c then
      if acc = [] then splitWsAux cs [] else acc.reverse :: splitWsAux cs []
    else splitWsAux cs (c :: acc)

def splitWs (s : List Char) : List (List Char) := splitWsAux s []

/-- Python `str.split('"')`: split on every double quote, keeping empty
    pieces. -/
def splitOnQuote : List Char → List (List Char)
  | [] => [[]]
  | c :: cs =>
    if c = '"' then [] :: splitOnQuote cs
    else
      match splitOnQuote cs with
      | [] => [[c]]
      | t :: ts => (c :: t) :: ts

/-- Sequence-prefix test used to implement the substring test. -/
def startsWithSeq : List Char → List Char → Bool
  | [], _ => true
  | _ :: _, [] => false
  | p :: ps, c :: cs => p = c && startsWithSeq ps cs

/-- Python `pat in s` on strings: substring containment. -/
def hasSub : List Char → List Char → Bool
  | [], pat => pat.isEmpty
  | c :: cs, pat => startsWithSeq pat (c :: cs) || hasSub cs pat

/-- Python `line.split('"')[1] if '"' in line else ""`, the expression the
    parser uses to pull an attribute value out of its double quotes. -/
def quoteVal (line : List Char) : List Char :=
  if line.contains '"' then (splitOnQuote line).getD 1 [] else []

def ntPasswordLit : List Char := "NT-Password".toList

def cleartextLit : List Char := "Cleartext-Password".toList

def replyMessageLit : List Char := "Reply-Message".toList

-- The record parser ----------------------------------------------------------

/-- The record ("user info dict") produced by `RadiusManager._parse_user_entry`:
    the username, the source line range, and the recognized attributes
    NT-Password, Cleartext-Password and Reply-Message. -/
structure UserInfo where
  username : List Char
  lineStart : Nat
  lineEnd : Nat
  ntPassword : Option (List Char)
  cleartext : Option (List Char)
  replyMessage : Option (List Char)
deriving DecidableEq

/-- The `while next_idx < len(lines)` loop of `_parse_user_entry`
    (radius.py lines 253-262) that scans for Reply-Message continuation
    lines.  Note the loop tests `next_line` — the *stripped* line — for
    leading whitespace, so its break condition always fires; the fuel bound
    is therefore never reached. -/
def reply_loop (lines : List (List Char)) :
    Nat → Option (List Char) → Nat → Option (List Char) × Nat
  | 0, rm, next_idx => (rm, next_idx)
  | fuel + 1, rm, next_idx =>
    if next_idx < lines.length then
      let next_line := stripChars (lines.getD next_idx [])
      if isIndentedLine next_line = false then (rm, next_idx)
      else
        reply_loop lines fuel
          (if hasSub next_line replyMessageLit then some (quoteVal next_line) else rm)
          (next_idx + 1)
    else (rm, next_idx)

/-- What `_parse_user_entry` extracts from the stripped header line
    (radius.py lines 237-250): the first whitespace token as the username,
    and the quoted value under NT-Password, or else under
    Cleartext-Password, when that attribute name occurs in the line. -/
def parsedTuple (line : List Char) :
    List Char × Option (List Char) × Option (List Char) :=
  ((splitWs line).getD 0 [],
   (if hasSub line ntPasswordLit then some (quoteVal line) else none),
   (if !hasSub line ntPasswordLit && hasSub line cleartextLit then
      some (quoteVal line)
    else none))

/-- Builds the record dict of `_parse_user_entry` from the parsed tuple,
    the start index and the result of the Reply-Message loop. -/
def mkParsedInfo (t : List Char × Option (List Char) × Option (List Char))
    (i : Nat) (r : Option (List Char) × Nat) : UserInfo :=
  { username := t.1, lineStart := i, lineEnd := r.2 - 1,
    ntPassword := t.2.1, cleartext := t.2.2, replyMessage := r.1 }

/-- `RadiusManager._parse_user_entry` (radius.py lines 207-273): bounds
    check, indentation check, blank/comment check, the three-token
    leniency check, then attribute extraction and the Reply-Message loop. -/
def parse_user_entry (lines : List (List Char)) (start_idx : Nat) :
    Option UserInfo × Nat :=
  if lines.length ≤ start_idx then (none, start_idx)
  else if isIndentedLine (lines.getD start_idx []) then (none, start_idx + 1)
  else if stripChars (lines.getD start_idx []) = [] ∨
      headIsHash (stripChars (lines.getD start_idx [])) = true then
    (none, start_idx + 1)
  else if (splitWs (stripChars (lines.getD start_idx []))).length < 3 then
    (none, start_idx + 1)
  else
    (some (mkParsedInfo (parsedTuple (stripChars (lines.getD start_idx [])))
        start_idx (reply_loop lines lines.length none (start_idx + 1))),
     (reply_loop lines lines.length none (start_idx + 1)).2)

/-- Index-free core of the parser: what `_parse_user_entry` extracts from a
    single raw line (username, NT-Password, Cleartext-Password).  Because
    the Reply-Message loop always breaks immediately, the parser is fully
    determined by this function together with the index bookkeeping. -/
def parseHeaderLine (raw : List Char) :
    Option (List Char × Option (List Char) × Option (List Char)) :=
  if isIndentedLine raw then none
  else if stripChars raw = [] ∨ headIsHash (stripChars raw) = true then none
  else if (splitWs (stripChars raw)).length < 3 then none
  else some (parsedTuple (stripChars raw))

/-- The `UserInfo` that a successful parse at index `i` of a line `raw`
    produces. -/
def infoOf (t : List Char × Option (List Char) × Option (List Char))
    (i : Nat) : UserInfo :=
  mkParsedInfo t i (none, i + 1)

/-- The scanning loop of `RadiusManager.get_user` (radius.py lines 292-301),
    with explicit fuel; the parser advances by exactly one line per step, so
    `lines.length` fuel always suffices. -/
def get_user_loop (lines : List (List Char)) (username : List Char) :
    Nat → Nat → Option UserInfo
  | 0, _ => none
  | fuel + 1, i =>
    if i < lines.length then
      let r := parse_user_entry lines i
      match r.1 with
      | some info =>
        if info.username = username then some info
        else get_user_loop lines username fuel r.2
      | none => get_user_loop lines username fuel r.2
    else none

/-- `RadiusManager.get_user`: scan from the top, return the first parsed
    record whose username matches. -/
def get_user (lines : List (List Char)) (username : List Char) : Option UserInfo :=
  get_user_loop lines username lines.length 0

/-- The scanning loop of `RadiusManager.list_users` (radius.py lines
    309-328), with explicit fuel. -/
def list_users_loop (lines : List (List Char)) :
    Nat → Nat → List UserInfo
  | 0, _ => []
  | fuel + 1, i =>
    if i < lines.length then
      let r := parse_user_entry lines i
      match r.1 with
      | some info => info :: list_users_loop lines fuel r.2
      | none => list_users_loop lines fuel r.2
    else []

/-- `RadiusManager.list_users`: all parsed records, top to bottom. -/
def list_users (lines : List (List Char)) : List UserInfo :=
  list_users_loop lines lines.length 0

-- Lemmas about strip ---------------------------------------------------------

theorem dropWhile_head_not {p : Char → Bool} :
    ∀ (s : List Char) {c : Char} {t : List Char},
      s.dropWhile p = c :: t → p c = false := by
  intro s
  induction s with
  | nil => intro c t h; simp at h
  | cons x xs IH =>
    intro c t h
    by_cases hx : p x = true
    · rw [List.dropWhile_cons_of_pos hx] at h
      exact IH h
    · have hx' : p x = false := by simpa using hx
      rw [List.dropWhile_cons_of_neg (by simp [hx'])] at h
      injection h with h1 _
      subst h1
      exact hx'

theorem rtrim_decomp (s : List Char) :
    s = rtrimChars s ++ (s.reverse.takeWhile pyIsSpace).reverse := by
  unfold rtrimChars
  conv_lhs => rw [← s.reverse_reverse,
    ← List.takeWhile_append_dropWhile (p := pyIsSpace) (l := s.reverse)]
  rw [List.reverse_append]

theorem stripChars_head_not_ws {s : List Char} {c : Char} {t : List Char}
    (h : stripChars s = c :: t) : pyIsSpace c = false := by
  unfold stripChars at h
  rcases hu : s.dropWhile pyIsSpace with _ | ⟨d, u'⟩
  · rw [hu] at h
    simp [rtrimChars] at h
  · have hd : pyIsSpace d = false := dropWhile_head_not s hu
    rw [hu] at h
    have hdec := rtrim_decomp (d :: u')
    rw [h] at hdec
    rcases hdec with hdec
    injection hdec with h1 _
    subst h1
    exact hd

theorem stripChars_not_indented (l : List Char) :
    isIndentedLine (stripChars l) = false := by
  rcases h : stripChars l with _ | ⟨c, t⟩
  · rfl
  · have hc : pyIsSpace c = false := stripChars_head_not_ws h
    simp only [isIndentedLine, Bool.or_eq_false_iff, decide_eq_false_iff_not]
    constructor
    · intro hcc; subst hcc; simp [pyIsSpace] at hc
    · intro hcc; subst hcc; simp [pyIsSpace] at hc

-- Characterizing the parser --------------------------------------------------

theorem reply_loop_eq (lines : List (List Char)) (fuel : Nat)
    (rm : Option (List Char)) (i : Nat) :
    reply_loop lines fuel rm i = (rm, i) := by
  cases fuel with
  | zero => rfl
  | succ f =>
    unfold reply_loop
    by_cases h : i < lines.length
    · simp [h, stripChars_not_indented]
    · simp [h]


theorem parse_user_entry_char (lines : List (List Char)) (i : Nat)
    (h : i < lines.length) :
    parse_user_entry lines i =
      ((parseHeaderLine (lines.getD i [])).map (fun t => infoOf t i), i + 1) := by
  have h' : ¬ lines.length ≤ i := by omega
  unfold parse_user_entry parseHeaderLine
  rw [if_neg h', reply_loop_eq]
  by_cases h1 : isIndentedLine (lines.getD i []) = true
  · rw [if_pos h1, if_pos h1]
    rfl
  · rw [if_neg h1, if_neg h1]
    by_cases h2 : stripChars (lines.getD i []) = [] ∨
        headIsHash (stripChars (lines.getD i [])) = true
    · rw [if_pos h2, if_pos h2]
      rfl
    · rw [if_neg h2, if_neg h2]
      by_cases h3 : (splitWs (stripChars (lines.getD i []))).length < 3
      · rw [if_pos h3, if_pos h3]
        rfl
      · rw [if_neg h3, if_neg h3]
        rfl

/-- Whether a single raw line parses to a record whose username is `u`. -/
def headerNameIs (u : List Char) (l : List Char) : Bool :=
  match parseHeaderLine l with
  | some t => decide (t.1 = u)
  | none => false

theorem headerNameIs_none {u l : List Char} (hp : parseHeaderLine l = none) :
    headerNameIs u l = false := by
  unfold headerNameIs
  rw [hp]

theorem headerNameIs_some {u l : List Char}
    {t : List Char × Option (List Char) × Option (List Char)}
    (hp : parseHeaderLine l = some t) :
    headerNameIs u l = decide (t.1 = u) := by
  unfold headerNameIs
  rw [hp]

theorem get_user_loop_succ (lines : List (List Char)) (u : List Char)
    (f i : Nat) :
    get_user_loop lines u (f + 1) i =
      (if i < lines.length then
        match (parse_user_entry lines i).1 with
        | some info =>
          if info.username = u then some info
          else get_user_loop lines u f (parse_user_entry lines i).2
        | none => get_user_loop lines u f (parse_user_entry lines i).2
      else none) := rfl

theorem get_user_loop_none_iff (lines : List (List Char)) (u : List Char) :
    ∀ fuel i, lines.length ≤ fuel + i →
      (get_user_loop lines u fuel i = none ↔
        ∀ j, i ≤ j → j < lines.length →
          headerNameIs u (lines.getD j []) = false) := by
  intro fuel
  induction fuel with
  | zero =>
    intro i hfi
    simp only [get_user_loop]
    constructor
    · intro _ j hij hj
      omega
    · intro _
      trivial
  | succ f IH =>
    intro i hfi
    rw [get_user_loop_succ]
    by_cases hi : i < lines.length
    · rw [if_pos hi, parse_user_entry_char lines i hi]
      rcases hp : parseHeaderLine (lines.getD i []) with _ | ⟨t⟩
      · simp only [Option.map_none']
        rw [IH (i + 1) (by omega)]
        constructor
        · intro hall j hij hj
          rcases Nat.eq_or_lt_of_le hij with heq | hlt
          · subst heq
            exact headerNameIs_none hp
          · exact hall j hlt hj
        · intro hall j hij hj
          exact hall j (by omega) hj
      · simp only [Option.map_some']
        by_cases ht : t.1 = u
        · have hinfo : (infoOf t i).username = u := ht
          rw [if_pos hinfo]
          constructor
          · intro hc
            cases hc
          · intro hall
            have hx := hall i (le_refl i) hi
            rw [headerNameIs_some hp, ht] at hx
            simp at hx
        · have hinfo : ¬ (infoOf t i).username = u := ht
          rw [if_neg hinfo]
          rw [IH (i + 1) (by omega)]
          constructor
          · intro hall j hij hj
            rcases Nat.eq_or_lt_of_le hij with heq | hlt
            · subst heq
              rw [headerNameIs_some hp]
              simpa using ht
            · exact hall j hlt hj
          · intro hall j hij hj
            exact hall j (by omega) hj
    · rw [if_neg hi]
      constructor
      · intro _ j hij hj
        omega
      · intro _
        rfl

theorem get_user_loop_some (lines : List (List Char)) (u : List Char) :
    ∀ fuel i info, get_user_loop lines u fuel i = some info →
      ∃ j t, i ≤ j ∧ j < lines.length ∧
        parseHeaderLine (lines.getD j []) = some t ∧ t.1 = u ∧
        info = infoOf t j ∧
        ∀ k, i ≤ k → k < j → headerNameIs u (lines.getD k []) = false := by
  intro fuel
  induction fuel with
  | zero =>
    intro i info h
    simp [get_user_loop] at h
  | succ f IH =>
    intro i info h
    rw [get_user_loop_succ] at h
    by_cases hi : i < lines.length
    · rw [if_pos hi, parse_user_entry_char lines i hi] at h
      rcases hp : parseHeaderLine (lines.getD i []) with _ | ⟨t⟩
      · rw [hp] at h
        simp only [Option.map_none'] at h
        rcases IH (i + 1) info h with ⟨j, t, hij, hj, hpt, ht, hinfo, hmin⟩
        refine ⟨j, t, by omega, hj, hpt, ht, hinfo, ?_⟩
        intro k hik hkj
        rcases Nat.eq_or_lt_of_le hik with heq | hlt
        · subst heq
          exact headerNameIs_none hp
        · exact hmin k hlt hkj
      · rw [hp] at h
        simp only [Option.map_some'] at h
        by_cases ht : t.1 = u
        · have hinfo : (infoOf t i).username = u := ht
          rw [if_pos hinfo] at h
          refine ⟨i, t, le_refl i, hi, hp, ht, ?_, ?_⟩
          · injection h with h1
            exact h1.symm
          · intro k hik hki
            omega
        · have hinfo : ¬ (infoOf t i).username = u := ht
          rw [if_neg hinfo] at h
          rcases IH (i + 1) info h with ⟨j, t2, hij, hj, hpt, ht2, hinfo2, hmin⟩
          refine ⟨j, t2, by omega, hj, hpt, ht2, hinfo2, ?_⟩
          intro k hik hkj
          rcases Nat.eq_or_lt_of_le hik with heq | hlt
          · subst heq
            rw [headerNameIs_some hp]
            simpa using ht
          · exact hmin k hlt hkj
    · rw [if_neg hi] at h
      cases h

theorem get_user_loop_found (lines : List (List Char)) (u : List Char) :
    ∀ fuel i j t, lines.length ≤ fuel + i → i ≤ j → j < lines.length →
      parseHeaderLine (lines.getD j []) = some t → t.1 = u →
      (∀ k, i ≤ k → k < j → headerNameIs u (lines.getD k []) = false) →
      get_user_loop lines u fuel i = some (infoOf t j) := by
  intro fuel
  induction fuel with
  | zero =>
    intro i j t hfi hij hj _ _ _
    omega
  | succ f IH =>
    intro i j t hfi hij hj hpt ht hmin
    have hi : i < lines.length := by omega
    rw [get_user_loop_succ, if_pos hi, parse_user_entry_char lines i hi]
    rcases Nat.eq_or_lt_of_le hij with heq | hlt
    · subst heq
      rw [hpt]
      simp only [Option.map_some']
      have hinfo : (infoOf t i).username = u := ht
      rw [if_pos hinfo]
    · have hni : headerNameIs u (lines.getD i []) = false :=
        hmin i (le_refl i) hlt
      rcases hp : parseHeaderLine (lines.getD i []) with _ | ⟨t2⟩
      · simp only [Option.map_none']
        exact IH (i + 1) j t (by omega) (by omega) hj hpt ht
          (fun k hik hkj => hmin k (by omega) hkj)
      · simp only [Option.map_some']
        rw [headerNameIs_some hp] at hni
        have ht2 : ¬ (infoOf t2 i).username = u := by simpa using hni
        rw [if_neg ht2]
        exact IH (i + 1) j t (by omega) (by omega) hj hpt ht
          (fun k hik hkj => hmin k (by omega) hkj)

theorem list_users_loop_succ (lines : List (List Char)) (f i : Nat) :
    list_users_loop lines (f + 1) i =
      (if i < lines.length then
        match (parse_user_entry lines i).1 with
        | some info => info :: list_users_loop lines f (parse_user_entry lines i).2
        | none => list_users_loop lines f (parse_user_entry lines i).2
      else []) := rfl

theorem list_users_loop_count (lines : List (List Char)) (u : List Char) :
    ∀ fuel i, lines.length ≤ fuel + i →
      ((list_users_loop lines fuel i).countP (fun r => decide (r.username = u))) =
        ((lines.drop i).countP (headerNameIs u)) := by
  intro fuel
  induction fuel with
  | zero =>
    intro i hfi
    have hd : lines.drop i = [] := List.drop_eq_nil_of_le (by omega)
    simp [get_user_loop, list_users_loop, hd]
  | succ f IH =>
    intro i hfi
    rw [list_users_loop_succ]
    by_cases hi : i < lines.length
    · rw [if_pos hi, parse_user_entry_char lines i hi]
      have hd : lines.drop i = lines.getD i [] :: lines.drop (i + 1) := by
        rw [List.drop_eq_getElem_cons hi]
        rw [List.getD_eq_getElem lines [] hi]
      rcases hp : parseHeaderLine (lines.getD i []) with _ | ⟨t⟩
      · simp only [Option.map_none']
        rw [IH (i + 1) (by omega), hd, List.countP_cons,
          headerNameIs_none hp]
        simp
      · simp only [Option.map_some']
        rw [List.countP_cons, IH (i + 1) (by omega), hd, List.countP_cons,
          headerNameIs_some hp]
        have : (decide ((infoOf t i).username = u)) = decide (t.1 = u) := rfl
        rw [this]
    · rw [if_neg hi]
      have hd : lines.drop i = [] := List.drop_eq_nil_of_le (by omega)
      simp [hd]

-- Block finding and deletion -------------------------------------------------

/-- Python `re.match(rf"^{re.escape(username)}\s", line)`: the raw line
    starts with the username followed by one whitespace character. -/
def matchHeader (username line : List Char) : Bool :=
  startsWithSeq username line &&
    (match line.drop username.length with
     | [] => false
     | c :: _ => pyIsSpace c)

/-- `RadiusManager._find_user_blocks` (radius.py lines 181-205), the
    while loop recast as a line-by-line state machine: state `some s`
    means a block whose header is at index `s` is still consuming the
    indented continuation lines that follow it; a non-indented line closes
    a block exactly where the inner `while` of the Python loop stops, and
    is then itself tested as a candidate header, as the outer loop does
    after `i = j`. -/
def fubAux (u : List Char) : List (List Char) → Nat → Option Nat → List (Nat × Nat)
  | [], _, none => []
  | [], n, some s => [(s, n)]
  | l :: rest, i, some s =>
    if isIndentedLine l then fubAux u rest (i + 1) (some s)
    else
      (s, i) :: (if matchHeader u l then fubAux u rest (i + 1) (some i)
                 else fubAux u rest (i + 1) none)
  | l :: rest, i, none =>
    if matchHeader u l then fubAux u rest (i + 1) (some i)
    else fubAux u rest (i + 1) none

def find_user_blocks (lines : List (List Char)) (username : List Char) :
    List (Nat × Nat) :=
  fubAux username lines 0 none

/-- The `prev == '' or prev.startswith('#')` test of the upward block
    extension (radius.py lines 422-423 and 488-489). -/
def isBlankOrComment (l : List Char) : Bool :=
  decide (stripChars l = []) || headIsHash (stripChars l)

/-- The `while s > 0` upward extension of a block start over immediately
    preceding blank and comment lines (radius.py lines 419-426, 485-492). -/
def adjustStart (lines : List (List Char)) : Nat → Nat
  | 0 => 0
  | s + 1 =>
    if isBlankOrComment (lines.getD s []) then adjustStart lines s else s + 1

/-- Python `del lines[s:e]`. -/
def delSpan (lines : List (List Char)) (s e : Nat) : List (List Char) :=
  lines.take s ++ lines.drop e

/-- Python `sorted(adjusted, key=lambda x: x[0], reverse=True)`: a stable
    sort descending on the span start. -/
def sortSpansDesc (spans : List (Nat × Nat)) : List (Nat × Nat) :=
  List.insertionSort (fun a b => b.1 ≤ a.1) spans

/-- The `for s, e in sorted(adjusted, ...): del lines[s:e]` loop shared by
    `update_user_password` and `delete_user`. -/
def deleteSpans (lines : List (List Char)) (spans : List (Nat × Nat)) :
    List (List Char) :=
  (sortSpansDesc spans).foldl (fun acc se => delSpan acc se.1 se.2) lines

/-- The delete-all-blocks step: find every block, extend each start upward
    over blank/comment lines, and delete the spans in reverse start order.
    When no block exists this is the identity, matching the `if blocks:`
    guard in `update_user_password`. -/
def removeUserBlocks (lines : List (List Char)) (username : List Char) :
    List (List Char) :=
  deleteSpans lines
    ((find_user_blocks lines username).map (fun se => (adjustStart lines se.1, se.2)))

-- The store operations -------------------------------------------------------

/-- The five physical lines that `add_user`'s three-element `new_entry`
    (radius.py lines 360-365) appends to the file: the element
    `"\n# User added: {ts}\n"` is a blank line plus a comment line, and the
    last element ends in `"\n\n"`, contributing a trailing blank line. -/
def addEntry (username ts nt_hash : List Char) : List (List Char) :=
  ["\n".toList,
   "# User added: ".toList ++ ts ++ "\n".toList,
   username ++ "\tNT-Password := \"".toList ++ nt_hash ++ "\"\n".toList,
   "\tReply-Message := \"Welcome ".toList ++ username ++ "\"\n".toList,
   "\n".toList]

/-- The four physical lines of `update_user_password`'s `new_entry`
    (radius.py lines 432-438). -/
def updEntry (username ts nt_hash : List Char) : List (List Char) :=
  ["# Password updated: ".toList ++ ts ++ "\n".toList,
   username ++ "\tNT-Password := \"".toList ++ nt_hash ++ "\"\n".toList,
   "\tReply-Message := \"Welcome ".toList ++ username ++ "\"\n".toList,
   "\n".toList]

/-- `RadiusManager.add_user` (radius.py lines 330-378).  `none` models the
    `ValueError` raised by the duplicate-user check (the spec's
    `DuplicateUser`); in that case nothing is written and the file is
    unchanged.  `ts` is the formatted timestamp, and `(password, nt_hash)`
    stands for the pair supplied by the caller or produced by
    `PasswordManager.generate_user_credentials`. -/
def add_user (lines : List (List Char)) (username : List Char)
    (ts password nt_hash : List Char) :
    Option (List (List Char) × List Char × List Char) :=
  if (get_user lines username).isSome then none
  else
    some (sanitize_lines lines ++ addEntry username ts nt_hash,
      password, nt_hash)

/-- `RadiusManager.update_user_password` (radius.py lines 380-451).  `none`
    models the `ValueError` raised when the user does not exist (the
    spec's NotFound); otherwise the result is the file content written and
    the returned `(new_password, new_nt_hash)` pair. -/
def update_user_password (lines : List (List Char)) (username : List Char)
    (ts new_password new_nt_hash : List Char) :
    Option (List (List Char) × List Char × List Char) :=
  if (get_user lines username).isSome = false then none
  else
    some (sanitize_lines
        (removeUserBlocks (sanitize_lines lines) username ++
          updEntry username ts new_nt_hash),
      new_password, new_nt_hash)

/-- `RadiusManager.delete_user` (radius.py lines 453-508).  `none` models a
    `False` return (user not found, or no blocks found after sanitizing):
    in both cases nothing is written.  `some L'` models a `True` return
    with `L'` the file content written. -/
def delete_user (lines : List (List Char)) (username : List Char) :
    Option (List (List Char)) :=
  if (get_user lines username).isSome = false then none
  else if find_user_blocks (sanitize_lines lines) username = [] then none
  else some (sanitize_lines (removeUserBlocks (sanitize_lines lines) username))

-- The credential generator ---------------------------------------------------

def ascii_lowercase : List Char := "abcdefghijklmnopqrstuvwxyz".toList

def ascii_uppercase : List Char := "ABCDEFGHIJKLMNOPQRSTUVWXYZ".toList

def asciiDigits : List Char := "0123456789".toList

/-- The fixed symbol set of `PasswordManager` (password.py line 53). -/
def symbolSet : List Char := "!@#$%^&*".toList

/-- `PasswordManager.CHARSET = string.ascii_letters + string.digits +
    "!@#$%^&*"` (password.py line 53). -/
def CHARSET : List Char :=
  ascii_lowercase ++ ascii_uppercase ++ asciiDigits ++ symbolSet

/-- `PasswordManager.EXCLUDED_CHARS` (password.py line 54). -/
def EXCLUDED_CHARS : List Char := "0O1lI".toList

/-- The filtered charset built in `generate_password` (password.py lines
    76-77): the excluded ambiguous characters removed from CHARSET. -/
def filteredCharset : List Char :=
  CHARSET.filter (fun c => !EXCLUDED_CHARS.contains c)

/-- `secrets.choice(pool)` with the uniform random draw modelled by the
    index `r`. -/
def pickChar (pool : List Char) (r : Nat) : Char :=
  pool.getD (r % pool.length) ' '

/-- The `password_chars` list of `PasswordManager.generate_password`
    (password.py lines 88-98) before the final shuffle: one mandatory
    character from each of the four *unfiltered* class pools
    (`string.ascii_lowercase`, `string.ascii_uppercase`, `string.digits`,
    the symbol set), then `length - 4` draws from the filtered charset.
    The generated password is a permutation of this list
    (`secrets.SystemRandom().shuffle` permutes it in place). -/
def password_chars (n r1 r2 r3 r4 : Nat) (rrest : Nat → Nat) : List Char :=
  [pickChar ascii_lowercase r1, pickChar ascii_uppercase r2,
   pickChar asciiDigits r3, pickChar symbolSet r4] ++
   (List.range (n - 4)).map (fun k => pickChar filteredCharset (rrest k))

-- The atomic file writer -----------------------------------------------------

/-- Abstract file-system state for the writer: the content of the target
    authorize file and of the sibling `.tmp` file, `none` when the file
    does not exist. -/
structure FSState where
  target : Option (List Char)
  temp : Option (List Char)
deriving DecidableEq

inductive WriteStep where
  | duringTemp
  | duringReplace
deriving DecidableEq

/-- A fault injected into `_write_authorize_file`: the phase whose
    operation raises `OSError`, whether its errno is `EBUSY`, and the
    partial content the temporary file holds at the moment of failure. -/
structure WriteFault where
  step : WriteStep
  ebusy : Bool
  leftover : List Char
deriving DecidableEq

inductive WriteOutcome where
  | ok
  | okFallback
  | raised
deriving DecidableEq

/-- `RadiusManager._write_authorize_file` (radius.py lines 65-125) over the
    abstract state: write the whole line list to the temp file, then
    atomically replace the target.  On `OSError` with errno `EBUSY`
    (whichever phase raised), fall back to a direct write of the target and
    unlink the temp file.  On any other `OSError`, unlink the temp file if
    it exists and re-raise — the spec's `PersistenceFailure`.  The
    fallback's own direct write is modelled as succeeding. -/
def write_authorize_file (fs : FSState) (lines : List (List Char))
    (fault : Option WriteFault) : FSState × WriteOutcome :=
  match fault with
  | none =>
    ({ target := some lines.flatten, temp := none }, WriteOutcome.ok)
  | some f =>
    if f.ebusy then
      ({ target := some lines.flatten, temp := none }, WriteOutcome.okFallback)
    else
      ({ target := fs.target, temp := none }, WriteOutcome.raised)

-- Well-formedness predicates used as hypotheses -------------------------------

/-- A well-formed physical line: nonempty, terminated by a newline that
    occurs nowhere else in it, and free of the carriage-return, vertical
    tab and form feed characters, which Python treats as whitespace but
    which the program never writes. -/
def goodLine (l : List Char) : Bool :=
  !l.isEmpty &&
  (match l.getLast? with | some c => decide (c = '\n') | none => false) &&
  !(l.dropLast.contains '\n') &&
  l.all (fun c => !(c = '\r') && !(c = '\x0b') && !(c = '\x0c'))

/-- Constraints every real username of the bot satisfies (callers build
    `<prefix>_<external-id>` tokens): nonempty, free of whitespace, of the
    double quote and of the leading comment character. -/
def goodUser (u : List Char) : Bool :=
  !u.isEmpty && u.all (fun c => !pyIsSpace c && !(c = '"')) && !headIsHash u

/-- Constraints the generated NT hash satisfies (it is uppercase hex):
    free of whitespace and of the double quote. -/
def goodValue (h : List Char) : Bool :=
  h.all (fun c => !pyIsSpace c && !(c = '"'))

/-- Constraints the formatted timestamp satisfies: a single line free of
    exotic whitespace. -/
def goodTs (ts : List Char) : Bool :=
  ts.all (fun c => !(c = '\n') && !(c = '\r') && !(c = '\x0b') && !(c = '\x0c'))

/-- Number of lines that parse to a record for `u` — the parsable-block
    count for a username. -/
def countU (lines : List (List Char)) (u : List Char) : Nat :=
  lines.countP (headerNameIs u)

/-- Number of lines matching the block-header pattern `^u\s` — the
    regex-block count for a username. -/
def countHeaders (lines : List (List Char)) (u : List Char) : Nat :=
  lines.countP (matchHeader u)

-- Facts connecting strip, tokens and the header pattern ----------------------

theorem rtrimChars_eq_nil {s : List Char} (h : rtrimChars s = []) :
    ∀ c ∈ s, pyIsSpace c = true := by
  intro c hc
  unfold rtrimChars at h
  have h2 : s.reverse.dropWhile pyIsSpace = [] := by
    have := congrArg List.reverse h
    simpa using this
  rw [List.dropWhile_eq_nil_iff] at h2
  exact h2 c (by simpa using hc)

theorem strip_cons_of_head {c : Char} {t : List Char}
    (hc : pyIsSpace c = false) :
    ∃ t', stripChars (c :: t) = c :: t' := by
  unfold stripChars
  rw [List.dropWhile_cons_of_neg (by simp [hc])]
  rcases hr : rtrimChars (c :: t) with _ | ⟨d, t'⟩
  · have := rtrimChars_eq_nil hr c (List.mem_cons_self c t)
    rw [this] at hc
    cases hc
  · have hdec := rtrim_decomp (c :: t)
    rw [hr] at hdec
    injection hdec with h1 _
    subst h1
    exact ⟨t', rfl⟩

theorem startsWithSeq_cons {p c : Char} {ps cs : List Char}
    (h : startsWithSeq (p :: ps) (c :: cs) = true) :
    p = c ∧ startsWithSeq ps cs = true := by
  simpa [startsWithSeq, Bool.and_eq_true] using h

theorem startsWithSeq_head {u l : List Char} {c : Char} {u' : List Char}
    (hu : u = c :: u') (h : startsWithSeq u l = true) :
    ∃ l', l = c :: l' := by
  subst hu
  cases l with
  | nil => simp [startsWithSeq] at h
  | cons d l' =>
    have := startsWithSeq_cons h
    exact ⟨l', by rw [this.1]⟩

theorem startsWithSeq_append (u v : List Char) :
    startsWithSeq u (u ++ v) = true := by
  induction u with
  | nil => rfl
  | cons c cs IH => simpa [startsWithSeq] using IH

theorem goodUser_head {u : List Char} (hu : goodUser u = true) :
    ∃ c u', u = c :: u' ∧ pyIsSpace c = false ∧ c ≠ '#' ∧ c ≠ '"' := by
  unfold goodUser at hu
  simp only [Bool.and_eq_true] at hu
  rcases hu with ⟨⟨hne, hall⟩, hhash⟩
  cases u with
  | nil => simp at hne
  | cons c u' =>
    rw [List.all_cons] at hall
    simp only [Bool.and_eq_true] at hall
    refine ⟨c, u', rfl, ?_, ?_, ?_⟩
    · simpa using hall.1.1
    · intro hc
      subst hc
      simp [headIsHash] at hhash
    · simpa using hall.1.2

theorem matchHeader_not_indented {u l : List Char} (hu : goodUser u = true)
    (h : matchHeader u l = true) : isIndentedLine l = false := by
  rcases goodUser_head hu with ⟨c, u', hueq, hcws, _, _⟩
  unfold matchHeader at h
  simp only [Bool.and_eq_true] at h
  rcases startsWithSeq_head hueq h.1 with ⟨l', hl⟩
  subst hl
  simp only [isIndentedLine, Bool.or_eq_false_iff, decide_eq_false_iff_not]
  constructor
  · intro hc; subst hc; simp [pyIsSpace] at hcws
  · intro hc; subst hc; simp [pyIsSpace] at hcws

theorem matchHeader_not_blankOrComment {u l : List Char}
    (hu : goodUser u = true) (h : matchHeader u l = true) :
    isBlankOrComment l = false := by
  rcases goodUser_head hu with ⟨c, u', hueq, hcws, hch, _⟩
  unfold matchHeader at h
  simp only [Bool.and_eq_true] at h
  rcases startsWithSeq_head hueq h.1 with ⟨l', hl⟩
  subst hl
  rcases strip_cons_of_head hcws with ⟨t', hst⟩
  unfold isBlankOrComment
  rw [hst]
  simp only [headIsHash, Bool.or_eq_false_iff]
  constructor
  · simp
  · simpa using hch

theorem splitWsAux_nonws (tok : List Char) :
    ∀ (rest acc : List Char), (∀ c ∈ tok, pyIsSpace c = false) →
      splitWsAux (tok ++ rest) acc = splitWsAux rest (tok.reverse ++ acc) := by
  induction tok with
  | nil => intro rest acc _; simp
  | cons c cs IH =>
    intro rest acc hall
    have hc : pyIsSpace c = false := hall c (List.mem_cons_self c cs)
    rw [List.cons_append,
      show splitWsAux (c :: (cs ++ rest)) acc = splitWsAux (cs ++ rest) (c :: acc) by
        simp [splitWsAux, hc]]
    rw [IH rest (c :: acc) (fun d hd => hall d (List.mem_cons_of_mem c hd))]
    simp

theorem splitWs_head_decomp {s : List Char} {c : Char} {t : List Char}
    (hs : s = c :: t) (hc : pyIsSpace c = false) :
    splitWs s = s.takeWhile (fun d => !pyIsSpace d) ::
      splitWs (s.dropWhile (fun d => !pyIsSpace d)) := by
  have hdecomp : s.takeWhile (fun d => !pyIsSpace d) ++
      s.dropWhile (fun d => !pyIsSpace d) = s :=
    List.takeWhile_append_dropWhile _ _
  have htokne : s.takeWhile (fun d => !pyIsSpace d) =
      c :: t.takeWhile (fun d => !pyIsSpace d) := by
    subst hs
    rw [List.takeWhile_cons_of_pos (by simp [hc])]
  have htok_nonws : ∀ d ∈ s.takeWhile (fun d => !pyIsSpace d),
      pyIsSpace d = false := by
    intro d hd
    have := List.mem_takeWhile_imp hd
    simpa using this
  unfold splitWs
  conv_lhs => rw [← hdecomp]
  rw [splitWsAux_nonws _ _ _ htok_nonws]
  rcases hrest : s.dropWhile (fun d => !pyIsSpace d) with _ | ⟨d, r⟩
  · simp only [splitWsAux]
    rw [if_neg (by simp [htokne])]
    simp [htokne]
  · have hd : pyIsSpace d = true := by
      have := dropWhile_head_not s hrest
      simpa using this
    simp only [splitWsAux, hd, if_pos]
    simp [htokne]

theorem parseHeaderLine_elim {l : List Char}
    {t : List Char × Option (List Char) × Option (List Char)}
    (hp : parseHeaderLine l = some t) :
    isIndentedLine l = false ∧ stripChars l ≠ [] ∧
      headIsHash (stripChars l) = false ∧
      3 ≤ (splitWs (stripChars l)).length ∧ t = parsedTuple (stripChars l) := by
  unfold parseHeaderLine at hp
  by_cases h1 : isIndentedLine l = true
  · rw [if_pos h1] at hp; cases hp
  · have h1' : isIndentedLine l = false := by simpa using h1
    rw [if_neg (by simp [h1'])] at hp
    by_cases h2 : stripChars l = [] ∨ headIsHash (stripChars l) = true
    · rw [if_pos h2] at hp; cases hp
    · rw [if_neg h2] at hp
      push_neg at h2
      by_cases h3 : (splitWs (stripChars l)).length < 3
      · rw [if_pos h3] at hp; cases hp
      · rw [if_neg h3] at hp
        injection hp with hp
        exact ⟨h1', h2.1, by simpa using h2.2, by omega, hp.symm⟩

theorem headerNameIs_elim {u l : List Char} (h : headerNameIs u l = true) :
    ∃ t, parseHeaderLine l = some t ∧ t.1 = u := by
  unfold headerNameIs at h
  rcases hp : parseHeaderLine l with _ | ⟨t⟩
  · rw [hp] at h; cases h
  · rw [hp] at h
    exact ⟨t, rfl, by simpa using h⟩

/-- Under the well-formedness hypotheses, every line that parses to a
    record for `u` also matches the regex block-header pattern `^u\s`
    used by `_find_user_blocks`. -/
theorem parsable_match {u l : List Char} (hl : goodLine l = true)
    (_hu : goodUser u = true) (h : headerNameIs u l = true) :
    matchHeader u l = true := by
  rcases headerNameIs_elim h with ⟨t, hp, ht⟩
  rcases parseHeaderLine_elim hp with ⟨hind, hsne, _, hlen, htuple⟩
  -- the username is the first whitespace token of the stripped line
  rcases hstrip : stripChars l with _ | ⟨c, t0⟩
  · exact absurd hstrip hsne
  have hcws : pyIsSpace c = false := stripChars_head_not_ws hstrip
  have hsplit := splitWs_head_decomp hstrip.symm.symm hcws
  rw [hstrip] at hsplit
  -- dissect u
  have hu_eq : u = (c :: t0).takeWhile (fun d => !pyIsSpace d) := by
    have : t.1 = (splitWs (stripChars l)).getD 0 [] := by
      rw [htuple]; rfl
    rw [ht.symm, this, hstrip, hsplit]
    rfl
  -- the rest of the stripped line is nonempty and starts with whitespace
  have hlen2 : 1 ≤ (splitWs ((c :: t0).dropWhile (fun d => !pyIsSpace d))).length := by
    rw [hstrip, hsplit] at hlen
    simp only [List.length_cons] at hlen
    omega
  rcases hrest : (c :: t0).dropWhile (fun d => !pyIsSpace d) with _ | ⟨d, r⟩
  · rw [hrest] at hlen2
    simp [splitWs, splitWsAux] at hlen2
  have hd : pyIsSpace d = true := by
    have := dropWhile_head_not (c :: t0) hrest
    simpa using this
  -- the raw line starts with its stripped content
  have hlne : l ≠ [] := by
    intro hc
    subst hc
    simp [stripChars, rtrimChars, List.dropWhile] at hstrip
  rcases hleq : l with _ | ⟨c0, l0⟩
  · exact absurd hleq hlne
  have hc0 : pyIsSpace c0 = false := by
    unfold goodLine at hl
    simp only [Bool.and_eq_true] at hl
    rcases hl with ⟨⟨⟨_, hlast⟩, hnonl⟩, hall⟩
    by_contra hws
    have hws' : pyIsSpace c0 = true := by simpa using hws
    have hnind : isIndentedLine l = false := hind
    rw [hleq] at hnind
    simp only [isIndentedLine, Bool.or_eq_false_iff, decide_eq_false_iff_not] at hnind
    have hall0 : (!(c0 = '\r') && !(c0 = '\x0b') && !(c0 = '\x0c')) = true := by
      rw [hleq, List.all_cons, Bool.and_eq_true] at hall
      exact hall.1
    simp only [Bool.and_eq_true, Bool.not_eq_true', decide_eq_false_iff_not] at hall0
    have hc0n : c0 = '\n' := by
      unfold pyIsSpace at hws'
      simp only [Bool.or_eq_true, decide_eq_true_eq] at hws'
      rcases hws' with ((((h | h) | h) | h) | h) | h
      · exact absurd h hnind.2
      · exact absurd h hnind.1
      · exact h
      · exact absurd h hall0.1.1
      · exact absurd h hall0.1.2
      · exact absurd h hall0.2
    subst hc0n
    -- l starts with the newline that may only be its last character
    cases l0 with
    | nil =>
      rw [hleq] at hstrip
      simp [stripChars, List.dropWhile, pyIsSpace, rtrimChars] at hstrip
    | cons d0 l1 =>
      rw [hleq, List.dropLast_cons₂] at hnonl
      simp at hnonl
  -- now: l = stripChars l ++ trailing whitespace
  have hstrip_l : stripChars l = rtrimChars l := by
    unfold stripChars
    rw [hleq, List.dropWhile_cons_of_neg (by simp [hc0])]
  have hldecomp := rtrim_decomp l
  rw [← hstrip_l] at hldecomp
  have hstrip_decomp : (c :: t0) =
      (c :: t0).takeWhile (fun d => !pyIsSpace d) ++ (d :: r) := by
    rw [← hrest]
    exact (List.takeWhile_append_dropWhile _ _).symm
  rw [hstrip, hstrip_decomp, ← hu_eq, List.append_assoc] at hldecomp
  -- conclude
  unfold matchHeader
  rw [← hleq, hldecomp, List.drop_left, startsWithSeq_append]
  simp [hd]

-- Correctness of the block finder --------------------------------------------

theorem fubAux_nil_some (u : List Char) (n s : Nat) :
    fubAux u [] n (some s) = [(s, n)] := rfl

theorem fubAux_cons_some (u l : List Char) (rest : List (List Char)) (i s : Nat) :
    fubAux u (l :: rest) i (some s) =
      (if isIndentedLine l then fubAux u rest (i + 1) (some s)
       else (s, i) :: (if matchHeader u l then fubAux u rest (i + 1) (some i)
                       else fubAux u rest (i + 1) none)) := rfl

theorem fubAux_cons_none (u l : List Char) (rest : List (List Char)) (i : Nat) :
    fubAux u (l :: rest) i none =
      (if matchHeader u l then fubAux u rest (i + 1) (some i)
       else fubAux u rest (i + 1) none) := rfl

theorem fub_state_emits (u : List Char) :
    ∀ (ls : List (List Char)) (i s : Nat),
      ∃ e, (s, e) ∈ fubAux u ls i (some s) ∧ i ≤ e := by
  intro ls
  induction ls with
  | nil =>
    intro i s
    exact ⟨i, by rw [fubAux_nil_some]; exact List.mem_singleton_self _, le_refl i⟩
  | cons l rest IH =>
    intro i s
    by_cases hind : isIndentedLine l = true
    · rcases IH (i + 1) s with ⟨e, hmem, he⟩
      refine ⟨e, ?_, by omega⟩
      rw [fubAux_cons_some, if_pos hind]
      exact hmem
    · refine ⟨i, ?_, le_refl i⟩
      rw [fubAux_cons_some, if_neg hind]
      exact List.mem_cons_self _ _

theorem fub_coverage (u : List Char) (hu : goodUser u = true) :
    ∀ (ls : List (List Char)) (i : Nat) (st : Option Nat) (q : Nat),
      q < ls.length → matchHeader u (ls.getD q []) = true →
      ∃ se ∈ fubAux u ls i st, se.1 ≤ i + q ∧ i + q < se.2 := by
  intro ls
  induction ls with
  | nil =>
    intro i st q hq _
    simp at hq
  | cons l rest IH =>
    intro i st q hq hmatch
    cases q with
    | zero =>
      rw [List.getD_cons_zero] at hmatch
      have hnind : isIndentedLine l = false := matchHeader_not_indented hu hmatch
      cases st with
      | none =>
        rw [fubAux_cons_none, if_pos hmatch]
        rcases fub_state_emits u rest (i + 1) i with ⟨e, hmem, he⟩
        exact ⟨(i, e), hmem, by omega, by omega⟩
      | some s =>
        rw [fubAux_cons_some, if_neg (by simp [hnind]), if_pos hmatch]
        rcases fub_state_emits u rest (i + 1) i with ⟨e, hmem, he⟩
        exact ⟨(i, e), List.mem_cons_of_mem _ hmem, by omega, by omega⟩
    | succ q' =>
      rw [List.getD_cons_succ] at hmatch
      have hq' : q' < rest.length := by
        simp only [List.length_cons] at hq
        omega
      cases st with
      | some s =>
        by_cases hind : isIndentedLine l = true
        · rw [fubAux_cons_some, if_pos hind]
          rcases IH (i + 1) (some s) q' hq' hmatch with ⟨se, hmem, h1, h2⟩
          exact ⟨se, hmem, by omega, by omega⟩
        · rw [fubAux_cons_some, if_neg hind]
          by_cases hm : matchHeader u l = true
          · rw [if_pos hm]
            rcases IH (i + 1) (some i) q' hq' hmatch with ⟨se, hmem, h1, h2⟩
            exact ⟨se, List.mem_cons_of_mem _ hmem, by omega, by omega⟩
          · rw [if_neg hm]
            rcases IH (i + 1) none q' hq' hmatch with ⟨se, hmem, h1, h2⟩
            exact ⟨se, List.mem_cons_of_mem _ hmem, by omega, by omega⟩
      | none =>
        by_cases hm : matchHeader u l = true
        · rw [fubAux_cons_none, if_pos hm]
          rcases IH (i + 1) (some i) q' hq' hmatch with ⟨se, hmem, h1, h2⟩
          exact ⟨se, hmem, by omega, by omega⟩
        · rw [fubAux_cons_none, if_neg hm]
          rcases IH (i + 1) none q' hq' hmatch with ⟨se, hmem, h1, h2⟩
          exact ⟨se, hmem, by omega, by omega⟩

/-- Structure of the block list produced by `_find_user_blocks` from scan
    position `i`: blocks are ordered and disjoint, nonempty, within
    bounds, and every block's header line matches the pattern. -/
inductive GoodBlocks (L : List (List Char)) (u : List Char) :
    Nat → List (Nat × Nat) → Prop
  | nil (i : Nat) : GoodBlocks L u i []
  | cons (i s e : Nat) (rest : List (Nat × Nat)) :
      i ≤ s → s < e → e ≤ L.length →
      matchHeader u (L.getD s []) = true →
      GoodBlocks L u e rest →
      GoodBlocks L u i ((s, e) :: rest)

theorem GoodBlocks_mono {L : List (List Char)} {u : List Char}
    {i j : Nat} {bs : List (Nat × Nat)} (hij : i ≤ j)
    (h : GoodBlocks L u j bs) : GoodBlocks L u i bs := by
  cases h with
  | nil => exact GoodBlocks.nil i
  | cons _ s e rest hjs hse he hm hrest =>
    exact GoodBlocks.cons i s e rest (by omega) hse he hm hrest

theorem GoodBlocks_elem {L : List (List Char)} {u : List Char}
    {i : Nat} {bs : List (Nat × Nat)} (h : GoodBlocks L u i bs) :
    ∀ se ∈ bs, i ≤ se.1 ∧ se.1 < se.2 ∧ se.2 ≤ L.length ∧
      matchHeader u (L.getD se.1 []) = true := by
  induction h with
  | nil => intro se hse; cases hse
  | cons i s e rest his hse helen hm hrest IH =>
    intro se hmem
    rcases List.mem_cons.mp hmem with heq | hmem'
    · subst heq
      exact ⟨his, hse, helen, hm⟩
    · have := IH se hmem'
      exact ⟨by omega, this.2.1, this.2.2.1, this.2.2.2⟩

theorem fub_good (L : List (List Char)) (u : List Char) :
    ∀ (ls : List (List Char)) (i : Nat), ls = L.drop i → i ≤ L.length →
      (GoodBlocks L u i (fubAux u ls i none) ∧
       ∀ s, s < i → matchHeader u (L.getD s []) = true →
         ∃ e rest, fubAux u ls i (some s) = (s, e) :: rest ∧ s < e ∧ i ≤ e ∧
           e ≤ L.length ∧ GoodBlocks L u e rest) := by
  intro ls
  induction ls with
  | nil =>
    intro i hdrop hile
    have hlen : i = L.length := by
      have hl := congrArg List.length hdrop
      rw [List.length_drop] at hl
      simp at hl
      omega
    constructor
    · exact GoodBlocks.nil i
    · intro s hs hm
      exact ⟨i, [], fubAux_nil_some u i s, by omega, le_refl i, by omega,
        GoodBlocks.nil i⟩
  | cons l rest IH =>
    intro i hdrop hile
    have hlt : i < L.length := by
      by_contra hc
      have : L.drop i = [] := List.drop_eq_nil_of_le (by omega)
      rw [this] at hdrop
      cases hdrop
    have hrest : rest = L.drop (i + 1) := by
      have h1 : L.drop i = L.getD i [] :: L.drop (i + 1) := by
        rw [List.drop_eq_getElem_cons hlt, List.getD_eq_getElem L [] hlt]
      rw [h1] at hdrop
      injection hdrop.symm with _ h2
      exact h2.symm
    have hl : l = L.getD i [] := by
      have h1 : L.drop i = L.getD i [] :: L.drop (i + 1) := by
        rw [List.drop_eq_getElem_cons hlt, List.getD_eq_getElem L [] hlt]
      rw [h1] at hdrop
      injection hdrop.symm with h2 _
      exact h2.symm
    have IH' := IH (i + 1) hrest (by omega)
    constructor
    · by_cases hm : matchHeader u l = true
      · rw [fubAux_cons_none, if_pos hm]
        rcases IH'.2 i (by omega) (by rw [← hl]; exact hm) with
          ⟨e, rest', heq, hie, h1e, helen, hgb⟩
        rw [heq]
        exact GoodBlocks.cons i i e rest' (le_refl i) hie helen
          (by rw [← hl]; exact hm) hgb
      · rw [fubAux_cons_none, if_neg hm]
        exact GoodBlocks_mono (by omega) IH'.1
    · intro s hs hmS
      by_cases hind : isIndentedLine l = true
      · rcases IH'.2 s (by omega) hmS with ⟨e, rest', heq, hse, h1e, helen, hgb⟩
        refine ⟨e, rest', ?_, hse, by omega, helen, hgb⟩
        rw [fubAux_cons_some, if_pos hind]
        exact heq
      · by_cases hm : matchHeader u l = true
        · rcases IH'.2 i (by omega) (by rw [← hl]; exact hm) with
            ⟨e, rest', heq, hie, h1e, helen, hgb⟩
          refine ⟨i, (i, e) :: rest', ?_, hs, le_refl i, by omega, ?_⟩
          · rw [fubAux_cons_some, if_neg hind, if_pos hm, heq]
          · exact GoodBlocks.cons i i e rest' (le_refl i) hie helen
              (by rw [← hl]; exact hm) hgb
        · refine ⟨i, fubAux u rest (i + 1) none, ?_, hs, le_refl i, by omega, ?_⟩
          · rw [fubAux_cons_some, if_neg hind, if_neg hm]
          · exact GoodBlocks_mono (by omega) IH'.1

theorem find_user_blocks_good (L : List (List Char)) (u : List Char) :
    GoodBlocks L u 0 (find_user_blocks L u) :=
  (fub_good L u L 0 (by simp) (by omega)).1

-- The upward extension --------------------------------------------------------

theorem adjustStart_le (lines : List (List Char)) : ∀ s, adjustStart lines s ≤ s := by
  intro s
  induction s with
  | zero => simp [adjustStart]
  | succ t IH =>
    unfold adjustStart
    by_cases h : isBlankOrComment (lines.getD t []) = true
    · rw [if_pos h]
      omega
    · rw [if_neg h]

theorem adjustStart_gt {lines : List (List Char)} {t : Nat}
    (ht : isBlankOrComment (lines.getD t []) = false) :
    ∀ s, t < s → t < adjustStart lines s := by
  intro s
  induction s with
  | zero => intro h; omega
  | succ w IH =>
    intro h
    unfold adjustStart
    by_cases hw : isBlankOrComment (lines.getD w []) = true
    · rw [if_pos hw]
      rcases Nat.lt_or_ge t w with hlt | hge
      · exact IH hlt
      · have htw : t = w := by omega
        subst htw
        rw [ht] at hw
        cases hw
    · rw [if_neg hw]
      omega

theorem adjusted_pairwise {L : List (List Char)} {u : List Char}
    (hu : goodUser u = true) :
    ∀ {i : Nat} {bs : List (Nat × Nat)}, GoodBlocks L u i bs →
      List.Pairwise (fun a b => a.1 < b.1 ∧ a.2 ≤ b.2)
        (bs.map (fun se => (adjustStart L se.1, se.2))) := by
  intro i bs h
  induction h with
  | nil => simp
  | cons i s e rest his hse helen hmatch hrest IH =>
    simp only [List.map_cons]
    refine List.Pairwise.cons ?_ IH
    intro b hb
    rcases List.mem_map.mp hb with ⟨se0, hse0, hbe⟩
    have helem := GoodBlocks_elem hrest se0 hse0
    have hbc : isBlankOrComment (L.getD s []) = false :=
      matchHeader_not_blankOrComment hu hmatch
    have h1 : adjustStart L s ≤ s := adjustStart_le L s
    have h2 : s < adjustStart L se0.1 := adjustStart_gt hbc se0.1 (by omega)
    rw [← hbe]
    constructor
    · simpa using by omega
    · simpa using by omega

-- The reverse-sorted deletion ------------------------------------------------

theorem orderedInsert_all_not (x : Nat × Nat) :
    ∀ (l : List (Nat × Nat)), (∀ y ∈ l, ¬(y.1 ≤ x.1)) →
      List.orderedInsert (fun a b => b.1 ≤ a.1) x l = l ++ [x] := by
  intro l
  induction l with
  | nil => intro _; rfl
  | cons y ys IH =>
    intro hall
    rw [List.orderedInsert]
    rw [if_neg (hall y (List.mem_cons_self y ys))]
    rw [IH (fun z hz => hall z (List.mem_cons_of_mem _ hz))]
    simp

theorem sortSpansDesc_asc :
    ∀ (bs : List (Nat × Nat)), List.Pairwise (fun a b => a.1 < b.1) bs →
      sortSpansDesc bs = bs.reverse := by
  intro bs
  induction bs with
  | nil => intro _; rfl
  | cons x xs IH =>
    intro h
    rw [List.pairwise_cons] at h
    unfold sortSpansDesc at IH ⊢
    rw [List.insertionSort, IH h.2]
    rw [orderedInsert_all_not x xs.reverse (fun y hy => by
      have := h.1 y (by simpa using hy)
      omega)]
    simp

theorem deleteSpans_fold_no_match (p : List Char → Bool) :
    ∀ (spans : List (Nat × Nat)) (acc : List (List Char)),
      List.Pairwise (fun a b => b.1 < a.1 ∧ b.2 ≤ a.2) spans →
      (∀ q, q < acc.length → p (acc.getD q []) = true →
        ∃ se ∈ spans, se.1 ≤ q ∧ q < se.2) →
      ∀ l ∈ spans.foldl (fun a se => delSpan a se.1 se.2) acc, p l = false := by
  intro spans
  induction spans with
  | nil =>
    intro acc _ hcov l hl
    simp only [List.foldl_nil] at hl
    by_contra hc
    have hp : p l = true := by simpa using hc
    rcases List.mem_iff_getElem.mp hl with ⟨q, hq, hlq⟩
    have hgd : acc.getD q [] = l := by
      rw [List.getD_eq_getElem acc [] hq]
      exact hlq
    rcases hcov q hq (by rw [hgd]; exact hp) with ⟨se, hse, _⟩
    cases hse
  | cons se0 rest IH =>
    intro acc hpw hcov l hl
    rw [List.pairwise_cons] at hpw
    simp only [List.foldl_cons] at hl
    refine IH (delSpan acc se0.1 se0.2) hpw.2 ?_ l hl
    intro q hq hp
    have hlen : (delSpan acc se0.1 se0.2).length =
        (acc.take se0.1).length + (acc.drop se0.2).length := by
      unfold delSpan
      rw [List.length_append]
    by_cases hql : q < (acc.take se0.1).length
    · have hgd : (delSpan acc se0.1 se0.2).getD q [] = acc.getD q [] := by
        unfold delSpan
        have hq1 : q < acc.length := by
          rw [List.length_take] at hql
          omega
        rw [List.getD_eq_getElem _ [] (by rw [List.length_append]; omega),
          List.getD_eq_getElem acc [] hq1]
        rw [List.getElem_append_left hql]
        exact List.getElem_take acc
      rw [hgd] at hp
      have hq1 : q < acc.length := by
        rw [List.length_take] at hql
        omega
      rcases hcov q hq1 hp with ⟨se, hse, hb1, hb2⟩
      rcases List.mem_cons.mp hse with heq | hmem
      · subst heq
        rw [List.length_take] at hql
        omega
      · exact ⟨se, hmem, hb1, hb2⟩
    · exfalso
      have hqge : (acc.take se0.1).length ≤ q := by omega
      have hq2 : q - (acc.take se0.1).length < (acc.drop se0.2).length := by
        rw [hlen] at hq
        omega
      have hgd : (delSpan acc se0.1 se0.2).getD q [] =
          acc.getD (se0.2 + (q - (acc.take se0.1).length)) [] := by
        unfold delSpan
        have hq3 : se0.2 + (q - (acc.take se0.1).length) < acc.length := by
          rw [List.length_drop] at hq2
          omega
        rw [List.getD_eq_getElem _ [] (by rw [List.length_append]; omega),
          List.getD_eq_getElem acc [] hq3]
        rw [List.getElem_append_right hqge]
        exact List.getElem_drop acc
      rw [hgd] at hp
      have hq3 : se0.2 + (q - (acc.take se0.1).length) < acc.length := by
        rw [List.length_drop] at hq2
        omega
      rcases hcov _ hq3 hp with ⟨se, hse, hb1, hb2⟩
      rcases List.mem_cons.mp hse with heq | hmem
      · subst heq
        omega
      · have := hpw.1 se hmem
        omega

theorem removeUserBlocks_no_match {L : List (List Char)} {u : List Char}
    (hu : goodUser u = true) :
    ∀ l ∈ removeUserBlocks L u, matchHeader u l = false := by
  have hgb := find_user_blocks_good L u
  have hpw := adjusted_pairwise hu hgb
  have hsort : sortSpansDesc
      ((find_user_blocks L u).map (fun se => (adjustStart L se.1, se.2))) =
      ((find_user_blocks L u).map (fun se => (adjustStart L se.1, se.2))).reverse :=
    sortSpansDesc_asc _ (hpw.imp (fun h => h.1))
  unfold removeUserBlocks deleteSpans
  rw [hsort]
  apply deleteSpans_fold_no_match
  · rw [List.pairwise_reverse]
    exact hpw
  · intro q hq hp
    rcases fub_coverage u hu L 0 none q hq hp with ⟨se, hse, h1, h2⟩
    refine ⟨(adjustStart L se.1, se.2), ?_, ?_, ?_⟩
    · rw [List.mem_reverse]
      exact List.mem_map.mpr ⟨se, hse, rfl⟩
    · have := adjustStart_le L se.1
      simp only []
      omega
    · simpa using h2

theorem deleteSpans_mem :
    ∀ (spans : List (Nat × Nat)) (acc : List (List Char)) (l : List Char),
      l ∈ spans.foldl (fun a se => delSpan a se.1 se.2) acc → l ∈ acc := by
  intro spans
  induction spans with
  | nil =>
    intro acc l h
    simpa using h
  | cons se rest IH =>
    intro acc l h
    simp only [List.foldl_cons] at h
    have h2 := IH _ l h
    unfold delSpan at h2
    rcases List.mem_append.mp h2 with h1 | h1
    · exact List.mem_of_mem_take h1
    · exact List.mem_of_mem_drop h1

theorem removeUserBlocks_mem {L : List (List Char)} {u : List Char}
    {l : List Char} (h : l ∈ removeUserBlocks L u) : l ∈ L := by
  unfold removeUserBlocks deleteSpans at h
  exact deleteSpans_mem _ L l h

theorem removeUserBlocks_no_record {L : List (List Char)} {u : List Char}
    (hu : goodUser u = true) (hgood : ∀ l ∈ L, goodLine l = true) :
    ∀ l ∈ removeUserBlocks L u, headerNameIs u l = false := by
  intro l hl
  by_contra hc
  have hh : headerNameIs u l = true := by simpa using hc
  have hmem : l ∈ L := removeUserBlocks_mem hl
  have hm := parsable_match (hgood l hmem) hu hh
  have hno := removeUserBlocks_no_match hu l hl
  rw [hm] at hno
  cases hno

-- get_user and list_users wrappers -------------------------------------------

theorem get_user_none_iff (lines : List (List Char)) (u : List Char) :
    get_user lines u = none ↔
      ∀ j, j < lines.length → headerNameIs u (lines.getD j []) = false := by
  unfold get_user
  rw [get_user_loop_none_iff lines u lines.length 0 (by omega)]
  constructor
  · intro h j hj
    exact h j (by omega) hj
  · intro h j _ hj
    exact h j hj

theorem get_user_none_of_forall (lines : List (List Char)) (u : List Char)
    (h : ∀ l ∈ lines, headerNameIs u l = false) :
    get_user lines u = none := by
  rw [get_user_none_iff]
  intro j hj
  apply h
  rw [List.getD_eq_getElem lines [] hj]
  exact List.getElem_mem hj

theorem get_user_found (lines : List (List Char)) (u : List Char)
    (j : Nat) (t : List Char × Option (List Char) × Option (List Char))
    (hj : j < lines.length)
    (hpt : parseHeaderLine (lines.getD j []) = some t) (ht : t.1 = u)
    (hmin : ∀ k, k < j → headerNameIs u (lines.getD k []) = false) :
    get_user lines u = some (infoOf t j) := by
  unfold get_user
  exact get_user_loop_found lines u lines.length 0 j t (by omega) (by omega) hj
    hpt ht (fun k _ hkj => hmin k hkj)

theorem get_user_some_elim (lines : List (List Char)) (u : List Char)
    (info : UserInfo) (h : get_user lines u = some info) :
    ∃ j t, j < lines.length ∧
      parseHeaderLine (lines.getD j []) = some t ∧ t.1 = u ∧
      info = infoOf t j ∧
      ∀ k, k < j → headerNameIs u (lines.getD k []) = false := by
  rcases get_user_loop_some lines u lines.length 0 info h with
    ⟨j, t, _, hj, hpt, ht, hinfo, hmin⟩
  exact ⟨j, t, hj, hpt, ht, hinfo, fun k hkj => hmin k (by omega) hkj⟩

theorem list_users_count (lines : List (List Char)) (u : List Char) :
    (list_users lines).countP (fun r => decide (r.username = u)) =
      countU lines u := by
  unfold list_users countU
  rw [list_users_loop_count lines u lines.length 0 (by omega)]
  simp

-- Computing the parse of the appended entry lines ----------------------------

theorem rtrim_concat_nl (x : List Char) :
    rtrimChars (x ++ ['\n']) = rtrimChars x := by
  unfold rtrimChars
  rw [List.reverse_append]
  simp [List.dropWhile, pyIsSpace]

theorem rtrim_concat_nonws {c : Char} (hc : pyIsSpace c = false) (x : List Char) :
    rtrimChars (x ++ [c]) = x ++ [c] := by
  unfold rtrimChars
  rw [List.reverse_append]
  simp only [List.reverse_cons, List.reverse_nil, List.nil_append,
    List.singleton_append]
  rw [List.dropWhile_cons_of_neg (by simp [hc])]
  simp

theorem strip_eq_rtrim_of_head {c : Char} (x : List Char)
    (hc : pyIsSpace c = false) :
    stripChars (c :: x) = rtrimChars (c :: x) := by
  unfold stripChars
  rw [List.dropWhile_cons_of_neg (by simp [hc])]

theorem hasSub_self_append (pat y : List Char) :
    hasSub (pat ++ y) pat = true := by
  rcases hpy : pat ++ y with _ | ⟨c, cs⟩
  · have hp : pat = [] := by
      rcases pat with _ | ⟨d, ds⟩
      · rfl
      · simp at hpy
    subst hp
    simp [hasSub]
  · unfold hasSub
    rw [← hpy, startsWithSeq_append]
    simp

theorem hasSub_append_left {s pat : List Char} (h : hasSub s pat = true) :
    ∀ x, hasSub (x ++ s) pat = true := by
  intro x
  induction x with
  | nil => simpa using h
  | cons c cs IH =>
    rw [List.cons_append]
    unfold hasSub
    rw [IH]
    simp

theorem splitOnQuote_ne_nil (s : List Char) : splitOnQuote s ≠ [] := by
  induction s with
  | nil => simp [splitOnQuote]
  | cons c cs IH =>
    unfold splitOnQuote
    by_cases hc : c = '"'
    · simp [hc]
    · rw [if_neg hc]
      rcases h : splitOnQuote cs with _ | ⟨t, ts⟩
      · exact absurd h IH
      · simp

theorem splitOnQuote_noquote {a : List Char} (ha : ∀ c ∈ a, c ≠ '"') :
    splitOnQuote a = [a] := by
  induction a with
  | nil => rfl
  | cons c cs IH =>
    have hc : c ≠ '"' := ha c (List.mem_cons_self c cs)
    unfold splitOnQuote
    rw [if_neg hc, IH (fun d hd => ha d (List.mem_cons_of_mem c hd))]

theorem splitOnQuote_noquote_quote {a : List Char} (s : List Char)
    (ha : ∀ c ∈ a, c ≠ '"') :
    splitOnQuote (a ++ '"' :: s) = a :: splitOnQuote s := by
  induction a with
  | nil => simp [splitOnQuote]
  | cons c cs IH =>
    have hc : c ≠ '"' := ha c (List.mem_cons_self c cs)
    rw [List.cons_append]
    show (if c = '"' then [] :: splitOnQuote (cs ++ '"' :: s)
      else match splitOnQuote (cs ++ '"' :: s) with
        | [] => [[c]]
        | t :: ts => (c :: t) :: ts) = (c :: cs) :: splitOnQuote s
    rw [if_neg hc, IH (fun d hd => ha d (List.mem_cons_of_mem c hd))]

theorem splitWsAux_ws_cons {d : Char} (hd : pyIsSpace d = true)
    (R acc : List Char) (hacc : acc ≠ []) :
    splitWsAux (d :: R) acc = acc.reverse :: splitWsAux R [] := by
  show (if pyIsSpace d = true then
      if acc = [] then splitWsAux R [] else acc.reverse :: splitWsAux R []
    else splitWsAux R (d :: acc)) = acc.reverse :: splitWsAux R []
  rw [if_pos hd, if_neg hacc]

theorem splitWs_token_cons {u : List Char} {d : Char} (R : List Char)
    (hne : u ≠ []) (hnonws : ∀ c ∈ u, pyIsSpace c = false)
    (hd : pyIsSpace d = true) :
    splitWs (u ++ d :: R) = u :: splitWs R := by
  unfold splitWs
  rw [splitWsAux_nonws u (d :: R) [] hnonws, List.append_nil,
    splitWsAux_ws_cons hd R u.reverse (by simpa using hne)]
  simp

theorem splitWs_all_nonws {s : List Char} (hne : s ≠ [])
    (hnonws : ∀ c ∈ s, pyIsSpace c = false) :
    splitWs s = [s] := by
  unfold splitWs
  have h := splitWsAux_nonws s [] [] hnonws
  rw [List.append_nil] at h
  rw [h, List.append_nil]
  show (if s.reverse = [] then [] else [s.reverse.reverse]) = [s]
  rw [if_neg (by simpa using hne)]
  simp

theorem goodUser_facts {u : List Char} (hu : goodUser u = true) :
    u ≠ [] ∧ (∀ c ∈ u, pyIsSpace c = false) ∧ (∀ c ∈ u, c ≠ '"') := by
  unfold goodUser at hu
  simp only [Bool.and_eq_true] at hu
  obtain ⟨⟨hne, hall⟩, _⟩ := hu
  rw [List.all_eq_true] at hall
  refine ⟨by simpa using hne, ?_, ?_⟩
  · intro c hc
    have h2 := hall c hc
    simp only [Bool.and_eq_true, Bool.not_eq_true'] at h2
    exact h2.1
  · intro c hc
    have h2 := hall c hc
    simp only [Bool.and_eq_true, Bool.not_eq_true', decide_eq_false_iff_not] at h2
    exact h2.2

theorem goodValue_facts {h : List Char} (hh : goodValue h = true) :
    (∀ c ∈ h, pyIsSpace c = false) ∧ (∀ c ∈ h, c ≠ '"') := by
  unfold goodValue at hh
  rw [List.all_eq_true] at hh
  refine ⟨?_, ?_⟩
  · intro c hc
    have h2 := hh c hc
    simp only [Bool.and_eq_true, Bool.not_eq_true'] at h2
    exact h2.1
  · intro c hc
    have h2 := hh c hc
    simp only [Bool.and_eq_true, Bool.not_eq_true', decide_eq_false_iff_not] at h2
    exact h2.2

theorem isIndentedLine_cons_nonws {c : Char} (hc : pyIsSpace c = false)
    (x : List Char) : isIndentedLine (c :: x) = false := by
  simp only [isIndentedLine, Bool.or_eq_false_iff, decide_eq_false_iff_not]
  constructor
  · intro hcc; subst hcc; simp [pyIsSpace] at hc
  · intro hcc; subst hcc; simp [pyIsSpace] at hc

theorem entryHeader_strip {u h : List Char} (hu : goodUser u = true) :
    stripChars (u ++ "\tNT-Password := \"".toList ++ h ++ "\"\n".toList) =
      u ++ "\tNT-Password := \"".toList ++ h ++ ['"'] := by
  obtain ⟨hne, hnonws, _⟩ := goodUser_facts hu
  rcases hueq : u with _ | ⟨c, u'⟩
  · exact absurd hueq hne
  have hc : pyIsSpace c = false := by
    apply hnonws
    rw [hueq]
    exact List.mem_cons_self _ _
  have hassoc : (c :: u') ++ "\tNT-Password := \"".toList ++ h ++ "\"\n".toList =
      c :: (u' ++ "\tNT-Password := \"".toList ++ h ++ "\"\n".toList) := by
    simp
  rw [hassoc, strip_eq_rtrim_of_head _ hc, ← hassoc]
  have hq : "\"\n".toList = ['"'] ++ ['\n'] := rfl
  have h2 : (c :: u') ++ "\tNT-Password := \"".toList ++ h ++ "\"\n".toList =
      ((((c :: u') ++ "\tNT-Password := \"".toList ++ h) ++ ['"']) ++ ['\n']) := by
    rw [hq]
    simp [List.append_assoc]
  rw [h2, rtrim_concat_nl, rtrim_concat_nonws (show pyIsSpace '"' = false by decide)]

theorem forall_nonws_of_all {l : List Char}
    (h : l.all (fun c => !pyIsSpace c) = true) :
    ∀ c ∈ l, pyIsSpace c = false := by
  rw [List.all_eq_true] at h
  intro c hc
  simpa using h c hc

theorem forall_noquote_of_all {l : List Char}
    (h : l.all (fun c => !(c = '"')) = true) :
    ∀ c ∈ l, c ≠ '"' := by
  rw [List.all_eq_true] at h
  intro c hc
  simpa using h c hc

/-- Full computation of the parse of the NT-Password header line that
    `add_user` and `update_user_password` append: it parses to a record
    for `u` whose NT-Password value is exactly `h`. -/
theorem entryHeader_parse {u h : List Char} (hu : goodUser u = true)
    (hh : goodValue h = true) :
    parseHeaderLine (u ++ "\tNT-Password := \"".toList ++ h ++ "\"\n".toList) =
      some (u, some h, none) := by
  obtain ⟨hne, hnonws, hnoq⟩ := goodUser_facts hu
  obtain ⟨hvnonws, hvnoq⟩ := goodValue_facts hh
  have hstrip := entryHeader_strip (u := u) (h := h) hu
  have hind : isIndentedLine
      (u ++ "\tNT-Password := \"".toList ++ h ++ "\"\n".toList) = false := by
    obtain ⟨c, u', hueq, hcws, _, _⟩ := goodUser_head hu
    subst hueq
    rw [show (c :: u') ++ "\tNT-Password := \"".toList ++ h ++ "\"\n".toList =
        c :: (u' ++ "\tNT-Password := \"".toList ++ h ++ "\"\n".toList) by simp]
    exact isIndentedLine_cons_nonws hcws _
  have hsne : u ++ "\tNT-Password := \"".toList ++ h ++ ['"'] ≠ [] := by
    simp
  have hhash : headIsHash (u ++ "\tNT-Password := \"".toList ++ h ++ ['"']) = false := by
    obtain ⟨c, u', hueq, _, hch, _⟩ := goodUser_head hu
    subst hueq
    rw [show (c :: u') ++ "\tNT-Password := \"".toList ++ h ++ ['"'] =
        c :: (u' ++ "\tNT-Password := \"".toList ++ h ++ ['"']) by simp]
    simp [headIsHash, hch]
  have hlitshape : "\tNT-Password := \"".toList =
      '\t' :: ("NT-Password".toList ++ ' ' :: (":=".toList ++ ' ' :: ['"'])) := rfl
  have hshape : u ++ "\tNT-Password := \"".toList ++ h ++ ['"'] =
      u ++ '\t' :: ("NT-Password".toList ++ ' ' ::
        (":=".toList ++ ' ' :: ('"' :: (h ++ ['"'])))) := by
    rw [hlitshape]
    simp [List.append_assoc]
  have hsplit : splitWs (u ++ "\tNT-Password := \"".toList ++ h ++ ['"']) =
      [u, "NT-Password".toList, ":=".toList, '"' :: (h ++ ['"'])] := by
    rw [hshape]
    rw [splitWs_token_cons _ hne hnonws (by decide)]
    rw [splitWs_token_cons _ (by decide) (forall_nonws_of_all (by decide)) (by decide)]
    rw [splitWs_token_cons _ (by decide) (forall_nonws_of_all (by decide)) (by decide)]
    rw [splitWs_all_nonws (by simp) ?_]
    · intro c hc
      rcases List.mem_cons.mp hc with heq | hc2
      · subst heq; decide
      · rcases List.mem_append.mp hc2 with hm | hc3
        · exact hvnonws c hm
        · rw [List.mem_singleton.mp hc3]; decide
  have hlit3 : "\tNT-Password := \"".toList =
      ['\t'] ++ ("NT-Password".toList ++ " := \"".toList) := rfl
  have hshape3 : u ++ "\tNT-Password := \"".toList ++ h ++ ['"'] =
      (u ++ ['\t']) ++ ("NT-Password".toList ++ (" := \"".toList ++ h ++ ['"'])) := by
    rw [hlit3]
    simp [List.append_assoc]
  have hsub : hasSub (u ++ "\tNT-Password := \"".toList ++ h ++ ['"'])
      ntPasswordLit = true := by
    rw [hshape3]
    apply hasSub_append_left
    rw [show "NT-Password".toList ++ (" := \"".toList ++ h ++ ['"']) =
        ntPasswordLit ++ (" := \"".toList ++ h ++ ['"']) from rfl]
    exact hasSub_self_append _ _
  have hlit4 : "\tNT-Password := \"".toList =
      "\tNT-Password := ".toList ++ ['"'] := rfl
  have hshape4 : u ++ "\tNT-Password := \"".toList ++ h ++ ['"'] =
      (u ++ "\tNT-Password := ".toList) ++ '"' :: (h ++ '"' :: []) := by
    rw [hlit4]
    simp [List.append_assoc]
  have hnoqA : ∀ c ∈ u ++ "\tNT-Password := ".toList, c ≠ '"' := by
    intro c hc
    rcases List.mem_append.mp hc with h1 | h1
    · exact hnoq c h1
    · exact forall_noquote_of_all (by decide) c h1
  have hquote : quoteVal (u ++ "\tNT-Password := \"".toList ++ h ++ ['"']) = h := by
    unfold quoteVal
    rw [if_pos ?_]
    · rw [hshape4, splitOnQuote_noquote_quote _ hnoqA,
        splitOnQuote_noquote_quote _ hvnoq]
      rfl
    · rw [hshape4]
      exact List.elem_iff.mpr (by simp)
  unfold parseHeaderLine
  rw [hstrip]
  rw [if_neg (show ¬ (isIndentedLine
      (u ++ "\tNT-Password := \"".toList ++ h ++ "\"\n".toList) = true) by
    intro hc; rw [hind] at hc; cases hc)]
  rw [if_neg (by
    push_neg
    refine ⟨hsne, ?_⟩
    intro hc
    rw [hhash] at hc
    cases hc)]
  rw [if_neg (by rw [hsplit]; simp)]
  unfold parsedTuple
  rw [hsplit, if_pos hsub, hquote]
  rw [show (!hasSub (u ++ "\tNT-Password := \"".toList ++ h ++ ['"']) ntPasswordLit &&
      hasSub (u ++ "\tNT-Password := \"".toList ++ h ++ ['"']) cleartextLit) =
      false by rw [hsub]; simp]
  simp

theorem parseHeaderLine_newline : parseHeaderLine ['\n'] = none := by decide

theorem parseHeaderLine_indented {l : List Char} (h : isIndentedLine l = true) :
    parseHeaderLine l = none := by
  unfold parseHeaderLine
  rw [if_pos h]

theorem parseHeaderLine_hash_cons (x : List Char) :
    parseHeaderLine ('#' :: x) = none := by
  unfold parseHeaderLine
  rcases strip_cons_of_head (c := '#') (t := x) (by decide) with ⟨t', hst⟩
  rw [if_neg (by
    intro hc
    rw [isIndentedLine_cons_nonws (by decide) x] at hc
    cases hc)]
  rw [if_pos (Or.inr (by rw [hst]; simp [headIsHash]))]

theorem matchHeader_head_ne {u l : List Char} {c d : Char} {u' l' : List Char}
    (hueq : u = c :: u') (hleq : l = d :: l') (hne : c ≠ d) :
    matchHeader u l = false := by
  subst hueq
  subst hleq
  simp [matchHeader, startsWithSeq, hne]

theorem entryHeader_match {u h : List Char} (_hu : goodUser u = true) :
    matchHeader u (u ++ "\tNT-Password := \"".toList ++ h ++ "\"\n".toList) = true := by
  unfold matchHeader
  rw [show u ++ "\tNT-Password := \"".toList ++ h ++ "\"\n".toList =
      u ++ ("\tNT-Password := \"".toList ++ (h ++ "\"\n".toList)) by simp,
    startsWithSeq_append, List.drop_left]
  rfl

/-- Boolean tameness of a character: none of newline, CR, VT, FF. -/
def tameChar (c : Char) : Bool :=
  !(c = '\n') && !(c = '\r') && !(c = '\x0b') && !(c = '\x0c')

theorem tameChar_elim {c : Char} (h : tameChar c = true) :
    c ≠ '\n' ∧ c ≠ '\r' ∧ c ≠ '\x0b' ∧ c ≠ '\x0c' := by
  unfold tameChar at h
  simp only [Bool.and_eq_true, Bool.not_eq_true', decide_eq_false_iff_not] at h
  exact ⟨h.1.1.1, h.1.1.2, h.1.2, h.2⟩

theorem nonws_tame {c : Char} (h : pyIsSpace c = false) : tameChar c = true := by
  unfold pyIsSpace at h
  simp only [Bool.or_eq_false_iff, decide_eq_false_iff_not] at h
  unfold tameChar
  simp only [Bool.and_eq_true, Bool.not_eq_true', decide_eq_false_iff_not]
  exact ⟨⟨⟨h.1.1.1.2, h.1.1.2⟩, h.1.2⟩, h.2⟩

theorem goodTs_tame {ts : List Char} (h : goodTs ts = true) :
    ∀ c ∈ ts, tameChar c = true := by
  unfold goodTs at h
  rw [List.all_eq_true] at h
  intro c hc
  have h2 := h c hc
  unfold tameChar
  simpa using h2

theorem goodLine_concat_nl {x : List Char}
    (hx : ∀ c ∈ x, tameChar c = true) :
    goodLine (x ++ ['\n']) = true := by
  unfold goodLine
  rw [List.getLast?_concat, List.dropLast_concat]
  have h1 : (x ++ ['\n']).isEmpty = false := by
    rcases x with _ | _ <;> rfl
  have h2 : x.contains '\n' = false := by
    by_contra hc
    have hm : '\n' ∈ x := List.elem_iff.mp (by simpa using hc)
    exact (tameChar_elim (hx _ hm)).1 rfl
  have h3 : (x ++ ['\n']).all
      (fun c => !(c = '\r') && !(c = '\x0b') && !(c = '\x0c')) = true := by
    rw [List.all_eq_true]
    intro c hc
    rcases List.mem_append.mp hc with hm | hm
    · obtain ⟨_, hr, hb, hf⟩ := tameChar_elim (hx c hm)
      simp [hr, hb, hf]
    · rw [List.mem_singleton.mp hm]
      decide
  rw [h1, h2, h3]
  simp

theorem nonws_ne {c : Char} (h : pyIsSpace c = false) :
    c ≠ ' ' ∧ c ≠ '\t' ∧ c ≠ '\n' := by
  unfold pyIsSpace at h
  simp only [Bool.or_eq_false_iff, decide_eq_false_iff_not] at h
  exact ⟨h.1.1.1.1.1, h.1.1.1.1.2, h.1.1.1.2⟩

theorem headerNameIs_nl (u : List Char) : headerNameIs u "\n".toList = false :=
  headerNameIs_none parseHeaderLine_newline

theorem addComment_headerNameIs (u ts : List Char) :
    headerNameIs u ("# User added: ".toList ++ ts ++ "\n".toList) = false := by
  apply headerNameIs_none
  rw [show "# User added: ".toList ++ ts ++ "\n".toList =
      '#' :: ((" User added: ".toList ++ ts) ++ "\n".toList) from rfl]
  exact parseHeaderLine_hash_cons _

theorem updComment_headerNameIs (u ts : List Char) :
    headerNameIs u ("# Password updated: ".toList ++ ts ++ "\n".toList) = false := by
  apply headerNameIs_none
  rw [show "# Password updated: ".toList ++ ts ++ "\n".toList =
      '#' :: ((" Password updated: ".toList ++ ts) ++ "\n".toList) from rfl]
  exact parseHeaderLine_hash_cons _

theorem reply_headerNameIs (u v : List Char) :
    headerNameIs u ("\tReply-Message := \"Welcome ".toList ++ v ++ "\"\n".toList)
      = false := by
  apply headerNameIs_none
  apply parseHeaderLine_indented
  rw [show "\tReply-Message := \"Welcome ".toList ++ v ++ "\"\n".toList =
      '\t' :: (("Reply-Message := \"Welcome ".toList ++ v) ++ "\"\n".toList) from rfl]
  rfl

theorem entryHeader_headerNameIs {u h : List Char} (hu : goodUser u = true)
    (hh : goodValue h = true) :
    headerNameIs u (u ++ "\tNT-Password := \"".toList ++ h ++ "\"\n".toList)
      = true := by
  rw [headerNameIs_some (entryHeader_parse hu hh)]
  simp

theorem matchHeader_nl {u : List Char} (hu : goodUser u = true) :
    matchHeader u "\n".toList = false := by
  obtain ⟨c, u', hueq, hws, _, _⟩ := goodUser_head hu
  exact matchHeader_head_ne hueq rfl (nonws_ne hws).2.2

theorem matchHeader_hash {u : List Char} (x : List Char) (hu : goodUser u = true) :
    matchHeader u ('#' :: x) = false := by
  obtain ⟨c, u', hueq, _, hch, _⟩ := goodUser_head hu
  exact matchHeader_head_ne hueq rfl hch

theorem matchHeader_tab {u : List Char} (x : List Char) (hu : goodUser u = true) :
    matchHeader u ('\t' :: x) = false := by
  obtain ⟨c, u', hueq, hws, _, _⟩ := goodUser_head hu
  exact matchHeader_head_ne hueq rfl (nonws_ne hws).2.1

theorem forall_tame_of_all {l : List Char}
    (h : l.all tameChar = true) : ∀ c ∈ l, tameChar c = true := by
  rw [List.all_eq_true] at h
  exact h

theorem addEntry_goodLines {u ts h : List Char} (hu : goodUser u = true)
    (ht : goodTs ts = true) (hh : goodValue h = true) :
    ∀ l ∈ addEntry u ts h, goodLine l = true := by
  obtain ⟨_, hnonws, _⟩ := goodUser_facts hu
  obtain ⟨hvnonws, _⟩ := goodValue_facts hh
  intro l hl
  unfold addEntry at hl
  simp only [List.mem_cons, List.mem_singleton] at hl
  rcases hl with rfl | rfl | rfl | rfl | (rfl | hF)
  · rw [show "\n".toList = ([] : List Char) ++ ['\n'] from rfl]
    exact goodLine_concat_nl (by intro c hc; cases hc)
  · rw [show "# User added: ".toList ++ ts ++ "\n".toList =
        ("# User added: ".toList ++ ts) ++ ['\n'] by simp]
    apply goodLine_concat_nl
    intro c hc
    rcases List.mem_append.mp hc with hm | hm
    · exact forall_tame_of_all (l := "# User added: ".toList) (by decide) c hm
    · exact goodTs_tame ht c hm
  · rw [show u ++ "\tNT-Password := \"".toList ++ h ++ "\"\n".toList =
        (u ++ "\tNT-Password := \"".toList ++ h ++ ['"']) ++ ['\n'] by
      rw [show "\"\n".toList = ['"'] ++ ['\n'] from rfl]
      simp [List.append_assoc]]
    apply goodLine_concat_nl
    intro c hc
    rcases List.mem_append.mp hc with hm | hm
    · rcases List.mem_append.mp hm with hm2 | hm2
      · rcases List.mem_append.mp hm2 with hm3 | hm3
        · exact nonws_tame (hnonws c hm3)
        · exact forall_tame_of_all (l := "\tNT-Password := \"".toList)
            (by decide) c hm3
      · exact nonws_tame (hvnonws c hm2)
    · rw [List.mem_singleton.mp hm]
      decide
  · rw [show "\tReply-Message := \"Welcome ".toList ++ u ++ "\"\n".toList =
        (("\tReply-Message := \"Welcome ".toList ++ u) ++ ['"']) ++ ['\n'] by
      rw [show "\"\n".toList = ['"'] ++ ['\n'] from rfl]
      simp [List.append_assoc]]
    apply goodLine_concat_nl
    intro c hc
    rcases List.mem_append.mp hc with hm | hm
    · rcases List.mem_append.mp hm with hm2 | hm2
      · exact forall_tame_of_all (l := "\tReply-Message := \"Welcome ".toList)
          (by decide) c hm2
      · exact nonws_tame (hnonws c hm2)
    · rw [List.mem_singleton.mp hm]
      decide
  · rw [show "\n".toList = ([] : List Char) ++ ['\n'] from rfl]
    exact goodLine_concat_nl (by intro c hc; cases hc)
  · cases hF

theorem updEntry_goodLines {u ts h : List Char} (hu : goodUser u = true)
    (ht : goodTs ts = true) (hh : goodValue h = true) :
    ∀ l ∈ updEntry u ts h, goodLine l = true := by
  obtain ⟨_, hnonws, _⟩ := goodUser_facts hu
  obtain ⟨hvnonws, _⟩ := goodValue_facts hh
  intro l hl
  unfold updEntry at hl
  simp only [List.mem_cons, List.mem_singleton] at hl
  rcases hl with rfl | rfl | rfl | (rfl | hF)
  · rw [show "# Password updated: ".toList ++ ts ++ "\n".toList =
        ("# Password updated: ".toList ++ ts) ++ ['\n'] by simp]
    apply goodLine_concat_nl
    intro c hc
    rcases List.mem_append.mp hc with hm | hm
    · exact forall_tame_of_all (l := "# Password updated: ".toList) (by decide) c hm
    · exact goodTs_tame ht c hm
  · rw [show u ++ "\tNT-Password := \"".toList ++ h ++ "\"\n".toList =
        (u ++ "\tNT-Password := \"".toList ++ h ++ ['"']) ++ ['\n'] by
      rw [show "\"\n".toList = ['"'] ++ ['\n'] from rfl]
      simp [List.append_assoc]]
    apply goodLine_concat_nl
    intro c hc
    rcases List.mem_append.mp hc with hm | hm
    · rcases List.mem_append.mp hm with hm2 | hm2
      · rcases List.mem_append.mp hm2 with hm3 | hm3
        · exact nonws_tame (hnonws c hm3)
        · exact forall_tame_of_all (l := "\tNT-Password := \"".toList)
            (by decide) c hm3
      · exact nonws_tame (hvnonws c hm2)
    · rw [List.mem_singleton.mp hm]
      decide
  · rw [show "\tReply-Message := \"Welcome ".toList ++ u ++ "\"\n".toList =
        (("\tReply-Message := \"Welcome ".toList ++ u) ++ ['"']) ++ ['\n'] by
      rw [show "\"\n".toList = ['"'] ++ ['\n'] from rfl]
      simp [List.append_assoc]]
    apply goodLine_concat_nl
    intro c hc
    rcases List.mem_append.mp hc with hm | hm
    · rcases List.mem_append.mp hm with hm2 | hm2
      · exact forall_tame_of_all (l := "\tReply-Message := \"Welcome ".toList)
          (by decide) c hm2
      · exact nonws_tame (hnonws c hm2)
    · rw [List.mem_singleton.mp hm]
      decide
  · rw [show "\n".toList = ([] : List Char) ++ ['\n'] from rfl]
    exact goodLine_concat_nl (by intro c hc; cases hc)
  · cases hF

theorem headerNameIs_shape {u l : List Char} (h : headerNameIs u l = true) :
    isIndentedLine l = false ∧ stripChars l ≠ [] := by
  rcases headerNameIs_elim h with ⟨t, hp, _⟩
  have h2 := parseHeaderLine_elim hp
  exact ⟨h2.1, h2.2.1⟩

theorem no_record_of_no_match {L : List (List Char)} {u : List Char}
    (hgood : ∀ l ∈ L, goodLine l = true) (hu : goodUser u = true)
    (hnm : ∀ l ∈ L, matchHeader u l = false) :
    ∀ l ∈ L, headerNameIs u l = false := by
  intro l hl
  by_contra hc
  have h2 := parsable_match (hgood l hl) hu (by simpa using hc)
  rw [hnm l hl] at h2
  cases h2

theorem sanitize_mem {L : List (List Char)} {l : List Char}
    (h : l ∈ sanitize_lines L) : l ∈ L :=
  (sanitizeAux_sublist L false false).subset h

theorem countP_eq_zero_of_false {L : List (List Char)} {p : List Char → Bool}
    (h : ∀ l ∈ L, p l = false) : L.countP p = 0 := by
  rw [List.countP_eq_zero]
  intro a ha
  rw [h a ha]
  simp

/-- Master lemma for a successful `add_user` on a file with no block for
    `u`: the exact file written, the record `get_user` then finds, and the
    parsable-block and regex-block counts, which are both exactly one. -/
theorem add_user_spec {L0 : List (List Char)} {u ts p nh : List Char}
    (hgood : ∀ l ∈ L0, goodLine l = true)
    (hnm : ∀ l ∈ L0, matchHeader u l = false)
    (hu : goodUser u = true) (ht : goodTs ts = true) (hh : goodValue nh = true) :
    add_user L0 u ts p nh = some (sanitize_lines L0 ++ addEntry u ts nh, p, nh) ∧
    get_user (sanitize_lines L0 ++ addEntry u ts nh) u =
      some (infoOf (u, some nh, none) ((sanitize_lines L0).length + 2)) ∧
    countU (sanitize_lines L0 ++ addEntry u ts nh) u = 1 ∧
    countHeaders (sanitize_lines L0 ++ addEntry u ts nh) u = 1 ∧
    (∀ l ∈ sanitize_lines L0 ++ addEntry u ts nh, goodLine l = true) := by
  have hnr : ∀ l ∈ L0, headerNameIs u l = false :=
    no_record_of_no_match hgood hu hnm
  have hgu : get_user L0 u = none := get_user_none_of_forall L0 u hnr
  have hAnr : ∀ l ∈ sanitize_lines L0, headerNameIs u l = false :=
    fun l hl => hnr l (sanitize_mem hl)
  have hAnm : ∀ l ∈ sanitize_lines L0, matchHeader u l = false :=
    fun l hl => hnm l (sanitize_mem hl)
  have hElen : (addEntry u ts nh).length = 5 := by
    unfold addEntry
    rfl
  have hL1len : (sanitize_lines L0 ++ addEntry u ts nh).length =
      (sanitize_lines L0).length + 5 := by
    rw [List.length_append, hElen]
  have hgetd2 : (sanitize_lines L0 ++ addEntry u ts nh).getD
      ((sanitize_lines L0).length + 2) [] =
      u ++ "\tNT-Password := \"".toList ++ nh ++ "\"\n".toList := by
    rw [List.getD_append_right _ _ [] _ (by omega), Nat.add_sub_cancel_left]
    rfl
  have hentry_good := addEntry_goodLines hu ht hh
  refine ⟨?_, ?_, ?_, ?_, ?_⟩
  · unfold add_user
    rw [hgu]
    rfl
  · apply get_user_found
    · rw [hL1len]
      omega
    · rw [hgetd2]
      exact entryHeader_parse hu hh
    · rfl
    · intro k hk
      have hk5 : k < (sanitize_lines L0).length + 2 := hk
      rcases Nat.lt_or_ge k (sanitize_lines L0).length with hlt | hge
      · rw [List.getD_append _ _ [] _ hlt]
        apply hAnr
        rw [List.getD_eq_getElem _ [] hlt]
        exact List.getElem_mem hlt
      · rcases Nat.eq_or_lt_of_le hge with heq | hgt
        · rw [List.getD_append_right _ _ [] _ (by omega), ← heq,
            Nat.sub_self]
          exact headerNameIs_nl u
        · have hk1 : k = (sanitize_lines L0).length + 1 := by omega
          rw [List.getD_append_right _ _ [] _ (by omega), hk1,
            Nat.add_sub_cancel_left]
          exact addComment_headerNameIs u ts
  · unfold countU
    rw [List.countP_append, countP_eq_zero_of_false hAnr]
    unfold addEntry
    rw [show (0 : Nat) + _ = _ from Nat.zero_add _]
    simp only [List.countP_cons, List.countP_nil, headerNameIs_nl,
      addComment_headerNameIs, reply_headerNameIs,
      entryHeader_headerNameIs hu hh]
    rfl
  · unfold countHeaders
    rw [List.countP_append, countP_eq_zero_of_false hAnm]
    have h0 : matchHeader u "\n".toList = false := matchHeader_nl hu
    have h1 : matchHeader u ("# User added: ".toList ++ ts ++ "\n".toList)
        = false := by
      rw [show "# User added: ".toList ++ ts ++ "\n".toList =
          '#' :: ((" User added: ".toList ++ ts) ++ "\n".toList) from rfl]
      exact matchHeader_hash _ hu
    have h2 := entryHeader_match (u := u) (h := nh) hu
    have h3 : matchHeader u
        ("\tReply-Message := \"Welcome ".toList ++ u ++ "\"\n".toList) = false := by
      rw [show "\tReply-Message := \"Welcome ".toList ++ u ++ "\"\n".toList =
          '\t' :: (("Reply-Message := \"Welcome ".toList ++ u) ++ "\"\n".toList)
          from rfl]
      exact matchHeader_tab _ hu
    unfold addEntry
    rw [show (0 : Nat) + _ = _ from Nat.zero_add _]
    simp only [List.countP_cons, List.countP_nil, h0, h1, h2, h3]
    rfl
  · intro l hl
    rcases List.mem_append.mp hl with hm | hm
    · exact hgood l (sanitize_mem hm)
    · exact hentry_good l hm

theorem get_user_isSome_of_count {L : List (List Char)} {u : List Char}
    (h : 1 ≤ countU L u) : (get_user L u).isSome = true := by
  rcases hg : get_user L u with _ | ⟨info⟩
  · exfalso
    rw [get_user_none_iff] at hg
    unfold countU at h
    have hpos : 0 < L.countP (headerNameIs u) := by omega
    rw [List.countP_pos_iff] at hpos
    rcases hpos with ⟨a, ha, hpa⟩
    rcases List.mem_iff_getElem.mp ha with ⟨j, hj, hja⟩
    have := hg j hj
    rw [List.getD_eq_getElem _ [] hj, hja] at this
    rw [this] at hpa
    cases hpa
  · rfl

/-- Master lemma for a successful `update_user_password`: the write
    happens, the file afterwards contains exactly one parsable block for
    `u`, and the record `get_user` finds carries exactly the fresh hash. -/
theorem update_user_spec {L1 : List (List Char)} {u ts p nh : List Char}
    (hgood : ∀ l ∈ L1, goodLine l = true) (hu : goodUser u = true)
    (_ht : goodTs ts = true) (hh : goodValue nh = true)
    (hfound : (get_user L1 u).isSome = true) :
    update_user_password L1 u ts p nh =
      some (sanitize_lines (removeUserBlocks (sanitize_lines L1) u ++
        updEntry u ts nh), p, nh) ∧
    countU (sanitize_lines (removeUserBlocks (sanitize_lines L1) u ++
      updEntry u ts nh)) u = 1 ∧
    (∃ info, get_user (sanitize_lines (removeUserBlocks (sanitize_lines L1) u ++
      updEntry u ts nh)) u = some info ∧ info.ntPassword = some nh) := by
  have hS_good : ∀ l ∈ sanitize_lines L1, goodLine l = true :=
    fun l hl => hgood l (sanitize_mem hl)
  have hR_nr : ∀ l ∈ removeUserBlocks (sanitize_lines L1) u,
      headerNameIs u l = false :=
    removeUserBlocks_no_record hu hS_good
  have hcount : countU (sanitize_lines (removeUserBlocks (sanitize_lines L1) u ++
      updEntry u ts nh)) u = 1 := by
    unfold countU
    rw [show sanitize_lines (removeUserBlocks (sanitize_lines L1) u ++
        updEntry u ts nh) = sanitizeAux false false
        (removeUserBlocks (sanitize_lines L1) u ++ updEntry u ts nh) from rfl]
    rw [sanitizeAux_countP (headerNameIs u)
      (fun l hl => headerNameIs_shape hl)]
    rw [List.countP_append, countP_eq_zero_of_false hR_nr]
    unfold updEntry
    rw [show (0 : Nat) + _ = _ from Nat.zero_add _]
    simp only [List.countP_cons, List.countP_nil, updComment_headerNameIs,
      reply_headerNameIs, headerNameIs_nl, entryHeader_headerNameIs hu hh]
    rfl
  refine ⟨?_, hcount, ?_⟩
  · unfold update_user_password
    rw [hfound]
    rfl
  · have hsome := get_user_isSome_of_count
      (L := sanitize_lines (removeUserBlocks (sanitize_lines L1) u ++
        updEntry u ts nh)) (u := u) (by rw [hcount])
    rcases hg : get_user (sanitize_lines (removeUserBlocks (sanitize_lines L1) u ++
        updEntry u ts nh)) u with _ | ⟨info⟩
    · rw [hg] at hsome
      cases hsome
    · refine ⟨info, rfl, ?_⟩
      rcases get_user_some_elim _ _ _ hg with ⟨j, t, hj, hpt, htu, hinfo, _⟩
      set lv := (sanitize_lines (removeUserBlocks (sanitize_lines L1) u ++
        updEntry u ts nh)).getD j [] with hlv
      have hline_mem : lv ∈ removeUserBlocks (sanitize_lines L1) u ++
          updEntry u ts nh := by
        rw [hlv, List.getD_eq_getElem _ [] hj]
        exact sanitize_mem (List.getElem_mem hj)
      have hhn : headerNameIs u lv = true := by
        rw [headerNameIs_some hpt]
        simp [htu]
      rcases List.mem_append.mp hline_mem with hm | hm
      · rw [hR_nr _ hm] at hhn
        cases hhn
      · unfold updEntry at hm
        simp only [List.mem_cons, List.mem_singleton] at hm
        rcases hm with hm | hm | hm | (hm | hF)
        · rw [hm, updComment_headerNameIs] at hhn
          cases hhn
        · rw [hm, entryHeader_parse hu hh] at hpt
          injection hpt with hpt2
          rw [hinfo, ← hpt2]
          rfl
        · rw [hm, reply_headerNameIs] at hhn
          cases hhn
        · rw [hm, headerNameIs_nl] at hhn
          cases hhn
        · cases hF

/-- Master lemma for `delete_user`: it returns `False` (no write) exactly
    when `get_user` finds nothing, and on success the written file has no
    line matching the block-header pattern for `u` and `get_user` then
    misses. -/
theorem delete_user_spec {L : List (List Char)} {u : List Char}
    (hgood : ∀ l ∈ L, goodLine l = true) (hu : goodUser u = true) :
    (get_user L u = none → delete_user L u = none) ∧
    (∀ info, get_user L u = some info →
      delete_user L u =
        some (sanitize_lines (removeUserBlocks (sanitize_lines L) u)) ∧
      (∀ l ∈ sanitize_lines (removeUserBlocks (sanitize_lines L) u),
        matchHeader u l = false) ∧
      get_user (sanitize_lines (removeUserBlocks (sanitize_lines L) u)) u
        = none) := by
  have hS_good : ∀ l ∈ sanitize_lines L, goodLine l = true :=
    fun l hl => hgood l (sanitize_mem hl)
  have hnm := removeUserBlocks_no_match (L := sanitize_lines L) (u := u) hu
  have hR_nr : ∀ l ∈ removeUserBlocks (sanitize_lines L) u,
      headerNameIs u l = false :=
    removeUserBlocks_no_record hu hS_good
  constructor
  · intro hg
    unfold delete_user
    rw [hg]
    rfl
  · intro info hg
    have hblocks : find_user_blocks (sanitize_lines L) u ≠ [] := by
      rcases get_user_some_elim _ _ _ hg with ⟨j, t, hj, hpt, htu, _, _⟩
      have hhn : headerNameIs u (L.getD j []) = true := by
        rw [headerNameIs_some hpt]
        simp [htu]
      have hlmem : L.getD j [] ∈ L := by
        rw [List.getD_eq_getElem _ [] hj]
        exact List.getElem_mem hj
      have hmatch : matchHeader u (L.getD j []) = true :=
        parsable_match (hgood _ hlmem) hu hhn
      have hshape := headerNameIs_shape hhn
      have hsanmem : L.getD j [] ∈ sanitize_lines L :=
        sanitizeAux_keeps_header hshape.1 hshape.2 L false false hlmem
      rcases List.mem_iff_getElem.mp hsanmem with ⟨q, hq, hql⟩
      have hmq : matchHeader u ((sanitize_lines L).getD q []) = true := by
        rw [List.getD_eq_getElem _ [] hq, hql]
        exact hmatch
      rcases fub_coverage u hu (sanitize_lines L) 0 none q hq hmq with
        ⟨se, hse, _, _⟩
      have hse2 : se ∈ find_user_blocks (sanitize_lines L) u := hse
      intro hc
      rw [hc] at hse2
      cases hse2
    refine ⟨?_, ?_, ?_⟩
    · unfold delete_user
      rw [hg]
      rw [if_neg (by simp), if_neg hblocks]
    · intro l hl
      exact hnm l (sanitize_mem hl)
    · apply get_user_none_of_forall
      intro l hl
      exact hR_nr l (sanitize_mem hl)

-- Claim theorems --------------------------------------------------------------

/-- Claim C7: the sanitizer is idempotent — for every line sequence `L`,
    `sanitize(sanitize(L)) = sanitize(L)`; running it twice produces the
    same output as running it once. -/
theorem claim_C7 (L : List (List Char)) :
    sanitize_lines (sanitize_lines L) = sanitize_lines L :=
  sanitizeAux_idem L false false

/-- Claim C8: no-orphan postcondition of the sanitizer — for every line
    sequence `L`, `sanitize(L)` contains no indented line that is not
    preceded (skipping blank lines and comment lines) by a non-indented,
    non-comment header line.  The first conjunct is the literal reading
    (blanks and comments transparent when walking back to a header); the
    second is the stronger block-structure fact that every indented line
    sits in a contiguous run immediately following its owning header. -/
theorem claim_C8 (L : List (List Char)) :
    noOrphan (sanitize_lines L) = true ∧
    blockAttached (sanitize_lines L) = true := by
  have hb : blockAttachedAux false (sanitizeAux false false L) = true :=
    sanitizeAux_blockAttached L false false
  exact ⟨blockAttached_imp_noOrphan _ false false (fun h => h) hb, hb⟩

/-- Claim C2 (code bug): the four mandatory class picks of
    `generate_password` draw from the *unfiltered* pools
    (`string.ascii_lowercase` etc., password.py lines 89-94), so the
    excluded ambiguous characters `0 O 1 l I` can appear in the generated
    secret, contradicting the exclusion the code itself sets up with
    `EXCLUDED_CHARS` and the filtered charset.  Failing input: length 12,
    lowercase pick index 11 (= 'l') and digit pick index 0 (= '0'); the
    final shuffle only permutes the list, so membership is preserved in
    the actual password.  The length-and-composition half of the claim
    does hold (the list has length 12 here and one pick from each class). -/
theorem claim_C2 :
    'l' ∈ EXCLUDED_CHARS ∧ '0' ∈ EXCLUDED_CHARS ∧
    'l' ∉ filteredCharset ∧ '0' ∉ filteredCharset ∧
    (password_chars 12 11 0 0 0 (fun _ => 0)).length = 12 ∧
    'l' ∈ password_chars 12 11 0 0 0 (fun _ => 0) ∧
    '0' ∈ password_chars 12 11 0 0 0 (fun _ => 0) := by decide

/-- Claim C9: if the writer fails with an I/O error other than the EBUSY
    rename-fallback case — whether while writing the temporary file or
    while performing the atomic replace — the failure propagates
    (PersistenceFailure), the temporary file is removed, and the target
    file is unchanged. -/
theorem claim_C9 (fs : FSState) (lines : List (List Char)) (f : WriteFault)
    (hne : f.ebusy = false) :
    (write_authorize_file fs lines (some f)).2 = WriteOutcome.raised ∧
    (write_authorize_file fs lines (some f)).1.target = fs.target ∧
    (write_authorize_file fs lines (some f)).1.temp = none := by
  unfold write_authorize_file
  simp [hne]

theorem claim_C9_witness :
    (write_authorize_file ⟨some ['a'], none⟩ [['b', '\n']]
      (some ⟨WriteStep.duringReplace, false, ['b']⟩)).2 = WriteOutcome.raised ∧
    (write_authorize_file ⟨some ['a'], none⟩ [['b', '\n']]
      (some ⟨WriteStep.duringReplace, false, ['b']⟩)).1.target = some ['a'] ∧
    (write_authorize_file ⟨some ['a'], none⟩ [['b', '\n']]
      (some ⟨WriteStep.duringReplace, false, ['b']⟩)).1.temp = none :=
  claim_C9 ⟨some ['a'], none⟩ [['b', '\n']] ⟨WriteStep.duringReplace, false, ['b']⟩ rfl

/-- Claim C10 (implicit): with multiple blocks parsing to the same
    username, `get_user` returns the record parsed from the earliest such
    line: the scan goes top to bottom and stops at the first parsed record
    whose username matches exactly; when it returns nothing, no line of
    the file parses to that username. -/
theorem claim_C10 (lines : List (List Char)) (u : List Char) :
    (get_user lines u = none →
      ∀ j, j < lines.length → headerNameIs u (lines.getD j []) = false) ∧
    (∀ info, get_user lines u = some info →
      ∃ t, info.lineStart < lines.length ∧
        parseHeaderLine (lines.getD info.lineStart []) = some t ∧ t.1 = u ∧
        info = infoOf t info.lineStart ∧
        ∀ k, k < info.lineStart → headerNameIs u (lines.getD k []) = false) := by
  constructor
  · intro h
    exact (get_user_none_iff lines u).mp h
  · intro info h
    rcases get_user_some_elim lines u info h with ⟨j, t, hj, hpt, ht, hinfo, hmin⟩
    have hjs : info.lineStart = j := by
      rw [hinfo]
      rfl
    refine ⟨t, ?_, ?_, ht, ?_, ?_⟩
    · rw [hjs]; exact hj
    · rw [hjs]; exact hpt
    · rw [hjs]; exact hinfo
    · rw [hjs]; exact hmin

def c10File : List (List Char) :=
  ["# h\n".toList, "carol\tNT-Password := \"AA\"\n".toList,
   "carol\tNT-Password := \"BB\"\n".toList]

theorem claim_C10_witness :
    headerNameIs "carol".toList (c10File.getD 0 []) = false := by
  rcases (claim_C10 c10File "carol".toList).2
      (infoOf ("carol".toList, some "AA".toList, none) 1) (by decide) with
    ⟨t, _, _, _, _, hmin⟩
  exact hmin 0 (by decide)

def c1File : List (List Char) :=
  ["bob\tNT-Password := \"AA\"\n".toList, "\n".toList]

def c1Upd : List (List Char) :=
  sanitize_lines (removeUserBlocks (sanitize_lines c1File) "bob".toList ++
    updEntry "bob".toList "TS".toList "BB".toList)

def c1Del : List (List Char) :=
  sanitize_lines (removeUserBlocks (sanitize_lines c1File) "bob".toList)

/-- Claim C1 counterexample: `add_user` sanitizes only *before* appending
    its block; on the prior file consisting of a single blank line the add
    succeeds and the written line sequence contains two consecutive blank
    lines (the kept blank plus the leading blank line of the appended
    entry), so the claim fails for the mutating operation add. -/
theorem claim_C1_counterexample :
    (add_user [['\n']] "alice".toList "2024-01-01 00:00:00".toList
        "pw".toList "AB12".toList).isSome = true ∧
    noConsecBlanks (((add_user [['\n']] "alice".toList
        "2024-01-01 00:00:00".toList "pw".toList "AB12".toList).getD
        ([], [], [])).1) = false := by decide

/-- Claim C1 (amended): `update_user_password` and `delete_user`
    re-sanitize after splicing and before writing, so every file they
    successfully write contains no two consecutive blank lines, for every
    prior file content; `add_user` sanitizes only before appending its
    block and can write two consecutive blank lines (see the
    counterexample). -/
theorem claim_C1 (L : List (List Char)) (u ts p nh : List Char) :
    (∀ L' q1 q2, update_user_password L u ts p nh = some (L', q1, q2) →
      noConsecBlanks L' = true) ∧
    (∀ L', delete_user L u = some L' → noConsecBlanks L' = true) := by
  constructor
  · intro L' q1 q2 h
    unfold update_user_password at h
    by_cases hg : (get_user L u).isSome = false
    · rw [if_pos hg] at h
      cases h
    · rw [if_neg hg] at h
      injection h with h1
      injection h1 with h2 _
      rw [← h2]
      exact (sanitizeAux_noConsec _ false false).1
  · intro L' h
    unfold delete_user at h
    by_cases hg : (get_user L u).isSome = false
    · rw [if_pos hg] at h
      cases h
    · rw [if_neg hg] at h
      by_cases hb : find_user_blocks (sanitize_lines L) u = []
      · rw [if_pos hb] at h
        cases h
      · rw [if_neg hb] at h
        injection h with h1
        rw [← h1]
        exact (sanitizeAux_noConsec _ false false).1

theorem claim_C1_witness :
    noConsecBlanks c1Upd = true ∧ noConsecBlanks c1Del = true := by
  constructor
  · exact (claim_C1 c1File "bob".toList "TS".toList "p".toList "BB".toList).1
      c1Upd "p".toList "BB".toList (by decide)
  · exact (claim_C1 c1File "bob".toList "TS".toList "p".toList "BB".toList).2
      c1Del (by decide)

def c3File : List (List Char) := ["carol x\n".toList]

/-- Claim C3 counterexample: on the file consisting of the single line
    `"carol x\n"`, the block finder (`_find_user_blocks`, regex `^carol\s`)
    finds one block for carol, yet `delete_user` returns False (`none`)
    and writes nothing, because the existence gate is `get_user`, whose
    parser requires at least three whitespace-separated tokens, and the
    two-token header is unparsable; so a file that contains a block for
    the username is *not* always emptied of it by delete. -/
theorem claim_C3_counterexample :
    find_user_blocks (sanitize_lines c3File) "carol".toList = [(0, 1)] ∧
    delete_user c3File "carol".toList = none := by decide

/-- Claim C3 (amended): for a file of well-formed lines and a well-formed
    username, deletion is governed by the parser-based lookup `get_user`:
    when `get_user` misses, delete returns False and is a no-op; when
    `get_user` finds a record, delete returns True with the written file,
    every line whose header matches the username pattern is removed —
    duplicates included, together with their immediately preceding
    blank/comment lines, via `removeUserBlocks` — and a subsequent
    `get_user` returns not-found. -/
theorem claim_C3 (L : List (List Char)) (u : List Char)
    (hgood : ∀ l ∈ L, goodLine l = true) (hu : goodUser u = true) :
    (get_user L u = none → delete_user L u = none) ∧
    (∀ info, get_user L u = some info →
      delete_user L u =
        some (sanitize_lines (removeUserBlocks (sanitize_lines L) u)) ∧
      (∀ l ∈ sanitize_lines (removeUserBlocks (sanitize_lines L) u),
        matchHeader u l = false) ∧
      get_user (sanitize_lines (removeUserBlocks (sanitize_lines L) u)) u
        = none) :=
  delete_user_spec hgood hu

def c3WFile : List (List Char) :=
  ["carol\tNT-Password := \"AA\"\n".toList, "\n".toList,
   "carol\tNT-Password := \"BB\"\n".toList, "\n".toList]

theorem claim_C3_witness :
    delete_user c3WFile "carol".toList =
      some (sanitize_lines (removeUserBlocks (sanitize_lines c3WFile)
        "carol".toList)) ∧
    get_user (sanitize_lines (removeUserBlocks (sanitize_lines c3WFile)
      "carol".toList)) "carol".toList = none := by
  obtain ⟨h1, _, h3⟩ := (claim_C3 c3WFile "carol".toList (by decide)
    (by decide)).2 (infoOf ("carol".toList, some "AA".toList, none) 0)
    (by decide)
  exact ⟨h1, h3⟩

/-- Claim C4: on a well-formed file with no block for `u`, the first add
    succeeds and writes the sanitized file plus one new entry; the second
    add with the same username fails (`none` models the `DuplicateUser`
    `ValueError`), which performs no write, so the file is identical to
    the state before the failed call; and that file contains exactly one
    parsable record and exactly one header-pattern line for `u`. -/
theorem claim_C4 (L0 : List (List Char)) (u ts ts2 p p2 nh nh2 : List Char)
    (hgood : ∀ l ∈ L0, goodLine l = true)
    (hnm : ∀ l ∈ L0, matchHeader u l = false)
    (hu : goodUser u = true) (ht : goodTs ts = true)
    (hh : goodValue nh = true) :
    add_user L0 u ts p nh = some (sanitize_lines L0 ++ addEntry u ts nh, p, nh) ∧
    add_user (sanitize_lines L0 ++ addEntry u ts nh) u ts2 p2 nh2 = none ∧
    countU (sanitize_lines L0 ++ addEntry u ts nh) u = 1 ∧
    countHeaders (sanitize_lines L0 ++ addEntry u ts nh) u = 1 := by
  obtain ⟨h1, h2, h3, h4, _⟩ := add_user_spec hgood hnm hu ht hh
  refine ⟨h1, ?_, h3, h4⟩
  unfold add_user
  rw [h2]
  rfl

theorem claim_C4_witness :
    add_user (sanitize_lines [] ++ addEntry "alice".toList "TS".toList
      "AAAA".toList) "alice".toList "TS".toList "p2".toList "BBBB".toList
      = none ∧
    countU (sanitize_lines [] ++ addEntry "alice".toList "TS".toList
      "AAAA".toList) "alice".toList = 1 := by
  obtain ⟨_, h2, h3, _⟩ := claim_C4 [] "alice".toList "TS".toList "TS".toList
    "p".toList "p2".toList "AAAA".toList "BBBB".toList (by decide) (by decide)
    (by decide) (by decide) (by decide)
  exact ⟨h2, h3⟩

def c5File : List (List Char) :=
  ["bob\tNT-Password := \"AAAA\"\n".toList]

/-- Claim C5 counterexample: the regenerated credential pair comes from a
    random generator, which can return the same secret (and hence the
    same hash) as the original; instantiating the regenerated hash to the
    stored hash `"AAAA"`, the update succeeds but the stored hash
    afterwards still equals the original, so the unconditional clause
    "its hash differs from the original" fails. -/
theorem claim_C5_counterexample :
    (update_user_password c5File "bob".toList "TS".toList "pw".toList
        "AAAA".toList).isSome = true ∧
    (get_user (((update_user_password c5File "bob".toList "TS".toList
        "pw".toList "AAAA".toList).getD ([], [], [])).1) "bob".toList).map
      UserInfo.ntPassword = some (some "AAAA".toList) := by decide

/-- Claim C5 (amended): after a successful add of `u` followed by an
    update with a regenerated pair, update replaces rather than appends:
    `list` contains exactly one record for `u`, that record holds the
    freshly generated hash, and the stored hash differs from the original
    whenever the regenerated hash differs from it — which the random
    generator makes overwhelmingly likely but does not guarantee. -/
theorem claim_C5 (L0 : List (List Char)) (u ts ts2 p p2 nh nh2 : List Char)
    (hgood : ∀ l ∈ L0, goodLine l = true)
    (hnm : ∀ l ∈ L0, matchHeader u l = false)
    (hu : goodUser u = true) (ht : goodTs ts = true) (ht2 : goodTs ts2 = true)
    (hh : goodValue nh = true) (hh2 : goodValue nh2 = true) :
    ∃ L1 L2, add_user L0 u ts p nh = some (L1, p, nh) ∧
      update_user_password L1 u ts2 p2 nh2 = some (L2, p2, nh2) ∧
      (list_users L2).countP (fun r => decide (r.username = u)) = 1 ∧
      ∃ info, get_user L2 u = some info ∧ info.ntPassword = some nh2 ∧
        (nh2 ≠ nh → info.ntPassword ≠ some nh) := by
  obtain ⟨h1, h2, _, _, h5⟩ := add_user_spec hgood hnm hu ht hh
  have hfound : (get_user (sanitize_lines L0 ++ addEntry u ts nh) u).isSome
      = true := by
    rw [h2]
    rfl
  obtain ⟨h6, h7, info, h8, h9⟩ := update_user_spec h5 hu ht2 hh2 hfound
  refine ⟨_, _, h1, h6, ?_, info, h8, h9, ?_⟩
  · rw [list_users_count]
    exact h7
  · intro hne hc
    rw [h9] at hc
    injection hc with hc2
    exact hne hc2

def c5L1 : List (List Char) :=
  sanitize_lines [] ++ addEntry "bob".toList "TS".toList "AAAA".toList

def c5L2 : List (List Char) :=
  sanitize_lines (removeUserBlocks (sanitize_lines c5L1) "bob".toList ++
    updEntry "bob".toList "TS2".toList "BBBB".toList)

theorem claim_C5_witness :
    update_user_password c5L1 "bob".toList "TS2".toList "p2".toList
      "BBBB".toList = some (c5L2, "p2".toList, "BBBB".toList) ∧
    (list_users c5L2).countP
      (fun r => decide (r.username = "bob".toList)) = 1 := by
  obtain ⟨L1, L2, e1, e2, e3, _⟩ := claim_C5 [] "bob".toList "TS".toList
    "TS2".toList "p".toList "p2".toList "AAAA".toList "BBBB".toList
    (by decide) (by decide) (by decide) (by decide) (by decide) (by decide)
    (by decide)
  have e1c : add_user [] "bob".toList "TS".toList "p".toList "AAAA".toList =
      some (c5L1, "p".toList, "AAAA".toList) := by decide
  rw [e1c] at e1
  injection e1 with e1a
  injection e1a with hL1 _
  have e2c : update_user_password c5L1 "bob".toList "TS2".toList "p2".toList
      "BBBB".toList = some (c5L2, "p2".toList, "BBBB".toList) := by decide
  rw [← hL1] at e2
  rw [e2c] at e2
  injection e2 with e2a
  injection e2a with hL2 _
  rw [← hL2] at e3
  exact ⟨e2c, e3⟩

/-- Claim C6: round trip through the store — on a well-formed file with
    no block for `u`, if `add_user` succeeds and returns the written file
    together with the pair `(secret, hash)`, then `get_user` on that file
    immediately afterwards returns a record whose NT-Password value
    equals that hash. -/
theorem claim_C6 (L0 : List (List Char)) (u ts p nh : List Char)
    (hgood : ∀ l ∈ L0, goodLine l = true)
    (hnm : ∀ l ∈ L0, matchHeader u l = false)
    (hu : goodUser u = true) (ht : goodTs ts = true)
    (hh : goodValue nh = true) :
    ∀ L1 q1 q2, add_user L0 u ts p nh = some (L1, q1, q2) →
      ∃ info, get_user L1 u = some info ∧ info.ntPassword = some q2 := by
  obtain ⟨h1, h2, _⟩ := add_user_spec hgood hnm hu ht hh
  intro L1 q1 q2 hadd
  rw [h1] at hadd
  injection hadd with ha
  injection ha with haL har
  injection har with hap hah
  rw [← haL, ← hah]
  exact ⟨_, h2, rfl⟩

theorem claim_C6_witness :
    (get_user (sanitize_lines [] ++ addEntry "dave".toList "TS".toList
        "CCCC".toList) "dave".toList).map UserInfo.ntPassword
      = some (some "CCCC".toList) := by
  obtain ⟨info, hi, hnt⟩ := claim_C6 [] "dave".toList "TS".toList "p".toList
    "CCCC".toList (by decide) (by decide) (by decide) (by decide) (by decide)
    (sanitize_lines [] ++ addEntry "dave".toList "TS".toList "CCCC".toList)
    "p".toList "CCCC".toList (by decide)
  rw [hi]
  exact congrArg some hnt
